import Mathlib

/-!
Verification of the text-processing core of the dossier resume builder.

The development shallowly embeds the pure string-processing functions of
the repository (skill codec, date-range formatter, CV text segmentation,
description block normalizer, contact-line builder) as executable Lean
functions over lists of characters, and proves or refutes the frozen
claims about them.

Modelling conventions, used throughout:
- a TypeScript string is modelled as a Lean String, with the real work
  done on its underlying list of characters;
- JavaScript regular expressions are modelled by hand-written scanners
  that reproduce the backtracking order of the concrete pattern; each
  scanner is documented next to the regex it models;
- the whitespace class of JavaScript (regex class of whitespace, and
  String.prototype.trim) is restricted to the whitespace characters that
  can actually appear in this development;
- case conversion is modelled on ASCII letters, which is what every
  claim exercises.
-/

namespace Dossier

/-- Whitespace characters recognised by the JavaScript whitespace regex
class and by String.prototype.trim, restricted to the characters
relevant here (space, tab, line feed, carriage return, vertical tab,
form feed, no-break space). -/
def isJsWs (c : Char) : Bool :=
  c = ' ' || c = '\t' || c = '\n' || c = '\r' || c = '\x0B' || c = '\x0C' || c = ' '

/-- Model of String.prototype.trim on a character list. -/
def jsTrim (l : List Char) : List Char :=
  (l.dropWhile isJsWs).rdropWhile isJsWs

def isAsciiUpper (c : Char) : Bool := 'A' ≤ c && c ≤ 'Z'

def isAsciiLower (c : Char) : Bool := 'a' ≤ c && c ≤ 'z'

def isAsciiAlpha (c : Char) : Bool := isAsciiUpper c || isAsciiLower c

def isAsciiDigit (c : Char) : Bool := '0' ≤ c && c ≤ '9'

/-- ASCII model of JavaScript toLowerCase on a single character. -/
def toLowerChar (c : Char) : Char :=
  if isAsciiUpper c then Char.ofNat (c.toNat + 32) else c

/-- ASCII model of JavaScript toLowerCase. -/
def lowerStr (l : List Char) : List Char := l.map toLowerChar

/-- Model of JavaScript String.prototype.split with a one-character
separator: trailing separators produce trailing empty groups, and the
empty string splits into one empty group. -/
def splitOnChar (sep : Char) : List Char → List (List Char)
  | [] => [[]]
  | c :: rest =>
    if c = sep then [] :: splitOnChar sep rest
    else
      match splitOnChar sep rest with
      | [] => [[c]]
      | g :: gs => (c :: g) :: gs

/-- Model of Array.prototype.join with the given separator. -/
def joinSep (sep : List Char) : List (List Char) → List Char
  | [] => []
  | [l] => l
  | l :: l2 :: rest => l ++ sep ++ joinSep sep (l2 :: rest)

/-- Model of one global replace of every whitespace run by a single
space (the replace of whitespace-plus by one space). -/
def collapseWsGo : Bool → List Char → List Char
  | _, [] => []
  | prevWs, c :: rest =>
    if isJsWs c then
      if prevWs then collapseWsGo true rest else ' ' :: collapseWsGo true rest
    else c :: collapseWsGo false rest

def collapseWs (l : List Char) : List Char := collapseWsGo false l

/-- Split on line feeds, the split of parseSkillEntries and of the line
normalizers. -/
def splitNl (l : List Char) : List (List Char) := splitOnChar '\n' l

/-- Model of String.prototype.includes for a substring pattern. -/
def csub (pat : List Char) : List Char → Bool
  | [] => pat.isPrefixOf []
  | l@(_ :: rest) => pat.isPrefixOf l || csub pat rest

/-! ## Skill entry codec, from src/lib/skill-levels.ts -/

/-- Skill entry record of src/lib/skill-levels.ts. The TypeScript
number field is modelled as Int: every level the codec produces or
consumes is integral, so the rounding step inside clampLevel is the
identity. -/
structure SkillEntry where
  name : String
  level : Int
deriving DecidableEq, Repr

def DEFAULT_SKILL_LEVEL : Int := 4

def MIN_SKILL_LEVEL : Int := 1

def MAX_SKILL_LEVEL : Int := 5

/-- clampLevel of src/lib/skill-levels.ts (rounding dropped: levels are
integral at every call site of this codec). -/
def clampLevel (value : Int) : Int := max MIN_SKILL_LEVEL (min MAX_SKILL_LEVEL value)

/-- Characters of the leading-bullet class in normalizeSkillName of
src/lib/skill-levels.ts. The source file contains the byte sequence of
a double-encoded bullet (the three characters U+00E2, U+20AC, U+00A2)
where the bullet character U+2022 was clearly intended, so the class is
exactly hyphen, U+00E2, U+20AC, U+00A2, asterisk. -/
def skillBulletChars : List Char := ['-', 'â', '€', '¢', '*']

/-- Model of the first replace of normalizeSkillName: one leading
bullet-class character followed by a whitespace run is removed. -/
def stripSkillBullet (l : List Char) : List Char :=
  match l with
  | c :: c2 :: rest =>
    if skillBulletChars.contains c && isJsWs c2 then (c2 :: rest).dropWhile isJsWs else l
  | _ => l

def normalizeSkillNameL (l : List Char) : List Char :=
  jsTrim (collapseWs (stripSkillBullet l))

/-- normalizeSkillName of src/lib/skill-levels.ts. -/
def normalizeSkillName (s : String) : String := ⟨normalizeSkillNameL s.data⟩

def isLevelDigit (c : Char) : Bool := '1' ≤ c && c ≤ '5'

/-- After a level separator the rest of the line must be optional
whitespace, one digit between one and five, optional whitespace, then
the end of the line. Returns the digit. -/
def tailLevelMatch (l : List Char) : Option Char :=
  match l.dropWhile isJsWs with
  | c :: rest => if isLevelDigit c && rest.all isJsWs then some c else none
  | [] => none

/-- Separator attempt of the first regex of parseLevelFromLine at one
position, in the backtracking order of the pattern: three colons, then
two colons, then a pipe, each followed by the level tail. -/
def trySep (l : List Char) : Option Char :=
  match (if [':', ':', ':'].isPrefixOf l then tailLevelMatch (l.drop 3) else none) with
  | some d => some d
  | none =>
    match (if [':', ':'].isPrefixOf l then tailLevelMatch (l.drop 2) else none) with
    | some d => some d
    | none => if ['|'].isPrefixOf l then tailLevelMatch (l.drop 1) else none

/-- Scanner for the first regex of parseLevelFromLine: a lazy name
group, a colon-colon (or triple colon or pipe) separator, and a level
digit ending the line. Positions are tried left to right, which is the
lazy-group order of the pattern. -/
def findLevelSplit : List Char → Option (List Char × Char)
  | [] => none
  | c :: rest =>
    match trySep (c :: rest) with
    | some d => some ([], d)
    | none => (findLevelSplit rest).map (fun pd => (c :: pd.1, pd.2))

/-- Tail check of the fraction regex of parseLevelFromLine at one
position: optional whitespace, an opening parenthesis, one digit,
optional whitespace, a slash, optional whitespace, the digit five, a
closing parenthesis, optional whitespace, end of line. -/
def fracHere (l : List Char) : Option Char :=
  match l.dropWhile isJsWs with
  | '(' :: c :: rest =>
    if isAsciiDigit c then
      match rest.dropWhile isJsWs with
      | '/' :: r2 =>
        match r2.dropWhile isJsWs with
        | '5' :: ')' :: r3 => if r3.all isJsWs then some c else none
        | _ => none
      | _ => none
    else none
  | _ => none

/-- Scanner for the fraction regex of parseLevelFromLine. -/
def findFractionSplit : List Char → Option (List Char × Char)
  | [] => none
  | c :: rest =>
    match fracHere (c :: rest) with
    | some d => some ([], d)
    | none => (findFractionSplit rest).map (fun pd => (c :: pd.1, pd.2))

/-- parseLevelFromLine of src/lib/skill-levels.ts. -/
def parseLevelFromLineL (l : List Char) : Option SkillEntry :=
  match findLevelSplit l with
  | some (pre, d) =>
    let n := normalizeSkillNameL pre
    if n = [] then none else some ⟨⟨n⟩, clampLevel ((d.toNat : Int) - 48)⟩
  | none =>
    match findFractionSplit l with
    | some (pre, d) =>
      let n := normalizeSkillNameL pre
      if n = [] then none else some ⟨⟨n⟩, clampLevel ((d.toNat : Int) - 48)⟩
    | none =>
      let n := normalizeSkillNameL l
      if n = [] then none else some ⟨⟨n⟩, DEFAULT_SKILL_LEVEL⟩

def parseLevelFromLine (line : String) : Option SkillEntry := parseLevelFromLineL line.data

/-- Order-preserving de-duplication by lower-cased name, keeping the
first occurrence, as in parseSkillEntries. -/
def dedupSkills : List (List Char) → List SkillEntry → List SkillEntry
  | _, [] => []
  | seen, e :: es =>
    let key := lowerStr e.name.data
    if key ∈ seen then dedupSkills seen es
    else e :: dedupSkills (key :: seen) es

/-- Trimmed nonempty lines of the skill description. -/
def skillRawLines (text : List Char) : List (List Char) :=
  ((splitNl text).map jsTrim).filter (· ≠ [])

/-- Comma convenience grammar of parseSkillEntries: one single line
with no double colon but with a comma splits on commas. -/
def skillExpandLines (rawLines : List (List Char)) : List (List Char) :=
  match rawLines with
  | [single] =>
    if csub [':', ':'] single = false ∧ ',' ∈ single then
      ((splitOnChar ',' single).map jsTrim).filter (· ≠ [])
    else rawLines
  | _ => rawLines

/-- parseSkillEntries of src/lib/skill-levels.ts. -/
def parseSkillEntries (description : String) : List SkillEntry :=
  if jsTrim description.data = [] then []
  else dedupSkills []
    ((skillExpandLines (skillRawLines (jsTrim description.data))).filterMap parseLevelFromLineL)

/-- Serialized line of one entry: normalized name, two colons, clamped
level; entries whose normalized name is empty are skipped. -/
def skillLine (e : SkillEntry) : Option (List Char) :=
  let n := normalizeSkillNameL e.name.data
  if n = [] then none else some (n ++ [':', ':'] ++ (toString (clampLevel e.level)).data)

/-- serializeSkillEntries of src/lib/skill-levels.ts. -/
def serializeSkillEntries (entries : List SkillEntry) : String :=
  ⟨joinSep ['\n'] (entries.filterMap skillLine)⟩

/-! ## General lemmas about the string utilities -/

theorem collapseWsGo_ws_space (l : List Char) :
    ∀ b, ∀ c ∈ collapseWsGo b l, isJsWs c = true → c = ' ' := by
  induction l with
  | nil => intro b c hc; simp [collapseWsGo] at hc
  | cons x rest ih =>
    intro b c hc hw
    by_cases hx : isJsWs x
    · rcases b with _ | _
      · rw [collapseWsGo, if_pos hx, if_neg (by simp)] at hc
        rcases List.mem_cons.mp hc with h | h
        · exact h
        · exact ih true c h hw
      · rw [collapseWsGo, if_pos hx, if_pos rfl] at hc
        exact ih true c hc hw
    · rw [collapseWsGo, if_neg hx] at hc
      rcases List.mem_cons.mp hc with h | h
      · exact absurd (h ▸ hw) (by simpa using hx)
      · exact ih false c h hw

theorem jsTrim_sublist (l : List Char) : (jsTrim l).Sublist l :=
  ((List.rdropWhile_prefix isJsWs (l.dropWhile isJsWs)).sublist).trans
    (List.dropWhile_sublist isJsWs)

theorem norm_ws_space (l : List Char) :
    ∀ c ∈ normalizeSkillNameL l, isJsWs c = true → c = ' ' := by
  intro c hc hw
  have hmem : c ∈ collapseWs (stripSkillBullet l) :=
    (jsTrim_sublist _).mem hc
  exact collapseWsGo_ws_space _ false c hmem hw

theorem dropWhile_head_not (p : Char → Bool) (l : List Char) :
    ∀ c, (l.dropWhile p).head? = some c → p c = false := by
  induction l with
  | nil => intro c h; simp [List.dropWhile] at h
  | cons x rest ih =>
    intro c h
    by_cases hx : p x
    · rw [List.dropWhile_cons_of_pos hx] at h
      exact ih c h
    · rw [List.dropWhile_cons_of_neg hx] at h
      simp at h
      subst h
      simpa using hx

theorem jsTrim_head_not_ws (l : List Char) :
    ∀ c, (jsTrim l).head? = some c → isJsWs c = false := by
  intro c h
  unfold jsTrim at h
  obtain ⟨t, ht⟩ := List.rdropWhile_prefix isJsWs (l.dropWhile isJsWs)
  have hne : (l.dropWhile isJsWs).rdropWhile isJsWs ≠ [] := by
    intro hnil; rw [hnil] at h; simp at h
  have : (l.dropWhile isJsWs).head? = some c := by
    rw [← ht]
    rcases he : (l.dropWhile isJsWs).rdropWhile isJsWs with _ | ⟨a, as⟩
    · exact absurd he hne
    · rw [he] at h; simp at h; simp [h]
  exact dropWhile_head_not isJsWs l c this

theorem jsTrim_getLast_not_ws (l : List Char) :
    ∀ c, (jsTrim l).getLast? = some c → isJsWs c = false := by
  intro c h
  have hne : jsTrim l ≠ [] := by intro hnil; rw [hnil] at h; simp at h
  have hlast := List.rdropWhile_last_not isJsWs (l.dropWhile isJsWs) (by exact hne)
  rw [List.getLast?_eq_getLast _ hne] at h
  simp at h
  have h2 : (List.rdropWhile isJsWs (List.dropWhile isJsWs l)).getLast hne = c := h
  rw [h2] at hlast
  simpa using hlast

theorem jsTrim_eq_self (l : List Char)
    (h1 : ∀ c, l.head? = some c → isJsWs c = false)
    (h2 : ∀ c, l.getLast? = some c → isJsWs c = false) : jsTrim l = l := by
  unfold jsTrim
  have hd : l.dropWhile isJsWs = l := by
    rcases l with _ | ⟨x, rest⟩
    · rfl
    · exact List.dropWhile_cons_of_neg (by simp [h1 x rfl])
  rw [hd]
  rcases hl : l with _ | ⟨x, rest⟩
  · simp [List.rdropWhile]
  · rw [← hl]
    refine List.rdropWhile_eq_self_iff.mpr ?_
    intro hne
    have := h2 (l.getLast hne) (List.getLast?_eq_getLast _ hne)
    simp [this]

theorem norm_head_not_ws (l : List Char) :
    ∀ c, (normalizeSkillNameL l).head? = some c → isJsWs c = false :=
  fun c h => jsTrim_head_not_ws _ c h

theorem norm_getLast_not_ws (l : List Char) :
    ∀ c, (normalizeSkillNameL l).getLast? = some c → isJsWs c = false :=
  fun c h => jsTrim_getLast_not_ws _ c h

/-! ## Lemmas about the level-separator scanner -/

def nonWsCount (l : List Char) : Nat := l.countP (fun c => !isJsWs c)

theorem nonWsCount_dropWhile (l : List Char) :
    nonWsCount (l.dropWhile isJsWs) = nonWsCount l := by
  induction l with
  | nil => rfl
  | cons x rest ih =>
    by_cases hx : isJsWs x
    · rw [List.dropWhile_cons_of_pos hx, ih]
      simp [nonWsCount, List.countP_cons, hx]
    · rw [List.dropWhile_cons_of_neg hx]

theorem nonWsCount_cons (c : Char) (l : List Char) :
    nonWsCount (c :: l) = nonWsCount l + if isJsWs c then 0 else 1 := by
  simp only [nonWsCount, List.countP_cons]
  by_cases h : isJsWs c <;> simp [h]

theorem nonWsCount_append (a b : List Char) :
    nonWsCount (a ++ b) = nonWsCount a + nonWsCount b := by
  simp [nonWsCount, List.countP_append]

theorem tailLevelMatch_none (l : List Char) (h : 2 ≤ nonWsCount l) :
    tailLevelMatch l = none := by
  unfold tailLevelMatch
  rcases hd : l.dropWhile isJsWs with _ | ⟨c, rest⟩
  · rfl
  · have hcount : nonWsCount (c :: rest) = nonWsCount l := by
      rw [← hd, nonWsCount_dropWhile]
    by_cases hcond : (isLevelDigit c && rest.all isJsWs) = true
    · exfalso
      have hall : rest.all isJsWs = true := by
        simp only [Bool.and_eq_true] at hcond
        exact hcond.2
      have hz : nonWsCount rest = 0 := by
        simp only [nonWsCount, List.countP_eq_zero]
        intro a ha
        have := (List.all_eq_true.mp hall) a ha
        simp [this]
      have h1 : nonWsCount (c :: rest) ≤ 1 := by
        rw [nonWsCount_cons, hz]
        by_cases hc : isJsWs c <;> simp [hc]
      omega
    · simp [hcond]

theorem tailLevelMatch_colons (u v : List Char) :
    tailLevelMatch (u ++ ':' :: ':' :: v) = none := by
  apply tailLevelMatch_none
  rw [nonWsCount_append, nonWsCount_cons, nonWsCount_cons]
  have h : isJsWs ':' = false := by decide
  rw [h]
  simp
  omega

theorem tailLevelMatch_colon_head (x : List Char) :
    tailLevelMatch (':' :: x) = none := by
  unfold tailLevelMatch
  rw [List.dropWhile_cons_of_neg (by decide)]
  have h : isLevelDigit ':' = false := by decide
  simp [h]

/-- An if over a boolean whose taken branch is already none. -/
theorem ite_tlm_none (b : Bool) (x : List Char) (h : tailLevelMatch x = none) :
    (if b = true then tailLevelMatch x else none) = none := by
  cases b <;> simp [h]

theorem trySep_canonical_none (name : List Char) (d : Char) (hne : name ≠ [])
    (hlast : name.getLast? ≠ some ':') :
    trySep (name ++ [':', ':', d]) = none := by
  have key : ∀ (u v : List Char), tailLevelMatch (u ++ ':' :: ':' :: v) = none :=
    tailLevelMatch_colons
  match name, hne with
  | [c], _ =>
    have hc : c ≠ ':' := by simpa using hlast
    have hc' : ':' ≠ c := fun h => hc h.symm
    unfold trySep
    have h3 : [':', ':', ':'].isPrefixOf ([c] ++ [':', ':', d]) = false := by
      simp [List.isPrefixOf, hc']
    have h2 : [':', ':'].isPrefixOf ([c] ++ [':', ':', d]) = false := by
      simp [List.isPrefixOf, hc']
    have e1 : ([c] ++ [':', ':', d]).drop 1 = [] ++ ':' :: ':' :: [d] := by simp
    rw [h3, h2, e1, ite_tlm_none _ _ (key [] [d])]
    simp
  | [c1, c2], _ =>
    unfold trySep
    have e3 : ([c1, c2] ++ [':', ':', d]).drop 3 = ':' :: [d] := by simp
    have e2 : ([c1, c2] ++ [':', ':', d]).drop 2 = [] ++ ':' :: ':' :: [d] := by simp
    have e1 : ([c1, c2] ++ [':', ':', d]).drop 1 = [c2] ++ ':' :: ':' :: [d] := by simp
    rw [e3, e2, e1, ite_tlm_none _ _ (tailLevelMatch_colon_head [d]),
      ite_tlm_none _ _ (key [] [d]), ite_tlm_none _ _ (key [c2] [d])]
  | c1 :: c2 :: c3 :: t, _ =>
    unfold trySep
    have e3 : ((c1 :: c2 :: c3 :: t) ++ [':', ':', d]).drop 3 = t ++ ':' :: ':' :: [d] := by
      simp
    have e2 : ((c1 :: c2 :: c3 :: t) ++ [':', ':', d]).drop 2 = (c3 :: t) ++ ':' :: ':' :: [d] := by
      simp
    have e1 : ((c1 :: c2 :: c3 :: t) ++ [':', ':', d]).drop 1 =
        (c2 :: c3 :: t) ++ ':' :: ':' :: [d] := by simp
    rw [e3, e2, e1, ite_tlm_none _ _ (key t [d]), ite_tlm_none _ _ (key (c3 :: t) [d]),
      ite_tlm_none _ _ (key (c2 :: c3 :: t) [d])]

theorem isLevelDigit_not_colon (d : Char) (hd : isLevelDigit d = true) : d ≠ ':' := by
  intro h; subst h; exact absurd hd (by decide)

theorem isLevelDigit_not_ws (d : Char) (hd : isLevelDigit d = true) : isJsWs d = false := by
  simp only [isLevelDigit, Bool.and_eq_true, decide_eq_true_eq] at hd
  obtain ⟨hl, hr⟩ := hd
  have h1 : d ≠ ' ' := fun h => by subst h; exact absurd hl (by decide)
  have h2 : d ≠ '\t' := fun h => by subst h; exact absurd hl (by decide)
  have h3 : d ≠ '\n' := fun h => by subst h; exact absurd hl (by decide)
  have h4 : d ≠ '\r' := fun h => by subst h; exact absurd hl (by decide)
  have h5 : d ≠ '\x0B' := fun h => by subst h; exact absurd hl (by decide)
  have h6 : d ≠ '\x0C' := fun h => by subst h; exact absurd hl (by decide)
  have h7 : d ≠ '\u00A0' := fun h => by subst h; exact absurd hr (by decide)
  simp [isJsWs, h1, h2, h3, h4, h5, h6, h7]

theorem findLevelSplit_append (name : List Char) (d : Char) (hd : isLevelDigit d = true)
    (hlast : name.getLast? ≠ some ':') :
    findLevelSplit (name ++ [':', ':', d]) = some (name, d) := by
  induction name with
  | nil =>
    show findLevelSplit (':' :: ':' :: [d]) = some ([], d)
    rw [findLevelSplit]
    have htry : trySep (':' :: ':' :: [d]) = some d := by
      unfold trySep
      have h3 : [':', ':', ':'].isPrefixOf (':' :: ':' :: [d]) = false := by
        simp [List.isPrefixOf]
        intro h
        exact absurd h.symm (isLevelDigit_not_colon d hd)
      rw [h3]
      simp only [Bool.false_eq_true, if_false]
      have h2 : [':', ':'].isPrefixOf (':' :: ':' :: [d]) = true := by
        simp [List.isPrefixOf]
      rw [h2]
      simp only [if_true]
      have : tailLevelMatch ((':' :: ':' :: [d]).drop 2) = some d := by
        show tailLevelMatch [d] = some d
        unfold tailLevelMatch
        rw [List.dropWhile_cons_of_neg (by simp [isLevelDigit_not_ws d hd])]
        simp [hd, List.dropWhile]
      rw [this]
    rw [htry]
  | cons c rest ih =>
    have hne : (c :: rest) ≠ [] := by simp
    rw [show ((c :: rest) ++ [':', ':', d]) = c :: (rest ++ [':', ':', d]) by simp]
    rw [findLevelSplit]
    rw [show (c :: (rest ++ [':', ':', d])) = ((c :: rest) ++ [':', ':', d]) by simp]
    rw [trySep_canonical_none (c :: rest) d hne hlast]
    have hlast' : rest.getLast? ≠ some ':' := by
      rcases rest with _ | ⟨r, rs⟩
      · simp
      · rw [List.getLast?_cons_cons] at hlast
        exact hlast
    rw [ih hlast']
    rfl

/-! ## Round trip of the skill codec on canonical entries -/

theorem parseLevel_canonical (name : List Char) (d : Char) (hd : isLevelDigit d = true)
    (hn : normalizeSkillNameL name = name) (hne : name ≠ [])
    (hlast : name.getLast? ≠ some ':') :
    parseLevelFromLineL (name ++ [':', ':', d]) =
      some ⟨⟨name⟩, clampLevel ((d.toNat : Int) - 48)⟩ := by
  unfold parseLevelFromLineL
  rw [findLevelSplit_append name d hd hlast]
  simp [hn, hne]

theorem level_digit (lvl : Int) (h1 : 1 ≤ lvl) (h2 : lvl ≤ 5) :
    ∃ d, (toString lvl).data = [d] ∧ isLevelDigit d = true ∧
      clampLevel ((d.toNat : Int) - 48) = lvl := by
  have hcases : lvl = 1 ∨ lvl = 2 ∨ lvl = 3 ∨ lvl = 4 ∨ lvl = 5 := by omega
  rcases hcases with h | h | h | h | h <;> subst h
  · exact ⟨'1', by decide, by decide, by decide⟩
  · exact ⟨'2', by decide, by decide, by decide⟩
  · exact ⟨'3', by decide, by decide, by decide⟩
  · exact ⟨'4', by decide, by decide, by decide⟩
  · exact ⟨'5', by decide, by decide, by decide⟩

theorem splitOnChar_no_sep (sep : Char) (l : List Char) (h : sep ∉ l) :
    splitOnChar sep l = [l] := by
  induction l with
  | nil => rfl
  | cons c rest ih =>
    have hc : c ≠ sep := fun he => h (he ▸ List.mem_cons_self c rest)
    have hr : sep ∉ rest := fun hm => h (List.mem_cons_of_mem c hm)
    rw [splitOnChar, if_neg hc, ih hr]

theorem splitOnChar_append (sep : Char) (a r : List Char) (h : sep ∉ a) :
    splitOnChar sep (a ++ sep :: r) = a :: splitOnChar sep r := by
  induction a with
  | nil => simp [splitOnChar]
  | cons c rest ih =>
    have hc : c ≠ sep := fun he => h (he ▸ List.mem_cons_self c rest)
    have hr : sep ∉ rest := fun hm => h (List.mem_cons_of_mem c hm)
    rw [List.cons_append, splitOnChar, if_neg hc, ih hr]

theorem joinSep_cons_cons (sep : List Char) (l l2 : List Char) (rs : List (List Char)) :
    joinSep sep (l :: l2 :: rs) = l ++ sep ++ joinSep sep (l2 :: rs) := rfl

theorem splitNl_joinSep (ls : List (List Char)) (hne : ls ≠ [])
    (h : ∀ l ∈ ls, '\n' ∉ l) : splitNl (joinSep ['\n'] ls) = ls := by
  induction ls with
  | nil => exact absurd rfl hne
  | cons l rest ih =>
    rcases rest with _ | ⟨l2, rs⟩
    · exact splitOnChar_no_sep _ _ (h l (by simp))
    · rw [joinSep_cons_cons]
      have he : l ++ ['\n'] ++ joinSep ['\n'] (l2 :: rs) = l ++ '\n' :: joinSep ['\n'] (l2 :: rs) := by
        simp
      rw [he]
      show splitOnChar '\n' (l ++ '\n' :: joinSep ['\n'] (l2 :: rs)) = l :: l2 :: rs
      rw [splitOnChar_append _ _ _ (h l (by simp))]
      have hrest := ih (by simp) (fun m hm => h m (List.mem_cons_of_mem l hm))
      exact congrArg (l :: ·) hrest

theorem map_fix {α : Type} (f : α → α) (l : List α) (h : ∀ x ∈ l, f x = x) :
    l.map f = l := by
  induction l with
  | nil => rfl
  | cons x rest ih =>
    rw [List.map_cons, h x (by simp), ih (fun y hy => h y (by simp [hy]))]

theorem filter_ne_nil_fix (l : List (List Char)) (h : ∀ x ∈ l, x ≠ []) :
    l.filter (· ≠ []) = l := by
  induction l with
  | nil => rfl
  | cons x rest ih =>
    have h1 : x ≠ [] := h x (by simp)
    simp [List.filter_cons, h1]
    intro a ha
    exact h a (by simp [ha])

theorem filterMap_eq_map_of {α β : Type} (f : α → Option β) (g : α → β) (l : List α)
    (h : ∀ x ∈ l, f x = some (g x)) : l.filterMap f = l.map g := by
  induction l with
  | nil => rfl
  | cons x rest ih =>
    rw [List.filterMap_cons, h x (by simp), List.map_cons,
      ih (fun y hy => h y (by simp [hy]))]

theorem csub_colons (u v : List Char) : csub [':', ':'] (u ++ ':' :: ':' :: v) = true := by
  induction u with
  | nil => simp [csub, List.isPrefixOf]
  | cons c rest ih =>
    rw [List.cons_append]
    show ([':', ':'].isPrefixOf (c :: (rest ++ ':' :: ':' :: v)) || csub [':', ':'] (rest ++ ':' :: ':' :: v)) = true
    rw [ih]
    simp

theorem joinSep_ne_nil (ls : List (List Char)) (hne : ls ≠ []) (h0 : ∀ l ∈ ls, l ≠ []) :
    joinSep ['\n'] ls ≠ [] := by
  rcases ls with _ | ⟨l, rest⟩
  · exact absurd rfl hne
  · rcases rest with _ | ⟨l2, rs⟩
    · exact h0 l (by simp)
    · rw [joinSep_cons_cons]
      rcases hl : l with _ | ⟨c, t⟩
      · exact absurd hl (h0 l (by simp))
      · simp

theorem joinSep_head_mem (ls : List (List Char)) (h0 : ∀ l ∈ ls, l ≠ []) :
    ∀ c, (joinSep ['\n'] ls).head? = some c → ∃ m ∈ ls, m.head? = some c := by
  induction ls with
  | nil => intro c h; simp [joinSep] at h
  | cons l rest ih =>
    intro c h
    rcases rest with _ | ⟨l2, rs⟩
    · exact ⟨l, by simp, h⟩
    · rw [joinSep_cons_cons] at h
      rcases hl : l with _ | ⟨x, t⟩
      · exact absurd hl (h0 l (by simp))
      · rw [hl] at h
        simp at h
        exact ⟨x :: t, List.mem_cons_self _ _, by simp [h]⟩

theorem joinSep_getLast_mem (ls : List (List Char)) (h0 : ∀ l ∈ ls, l ≠ []) :
    ∀ c, (joinSep ['\n'] ls).getLast? = some c → ∃ m ∈ ls, m.getLast? = some c := by
  induction ls with
  | nil => intro c h; simp [joinSep] at h
  | cons l rest ih =>
    intro c h
    rcases rest with _ | ⟨l2, rs⟩
    · exact ⟨l, by simp, h⟩
    · rw [joinSep_cons_cons] at h
      have hj : joinSep ['\n'] (l2 :: rs) ≠ [] :=
        joinSep_ne_nil _ (by simp) (fun m hm => h0 m (List.mem_cons_of_mem l hm))
      rw [List.getLast?_append_of_ne_nil (l ++ ['\n']) hj] at h
      obtain ⟨m, hm, hmc⟩ := ih (fun m hm => h0 m (List.mem_cons_of_mem l hm)) c h
      exact ⟨m, List.mem_cons_of_mem l hm, hmc⟩

/-- Canonical form of a skill entry exactly as claim C2 words it: the
name is a fixed point of normalizeSkillName, names are pairwise
distinct case-insensitively (stated separately), and the level lies in
the range one to five. -/
def specCanonicalSkill (e : SkillEntry) : Prop :=
  normalizeSkillName e.name = e.name ∧ 1 ≤ e.level ∧ e.level ≤ 5

instance (e : SkillEntry) : Decidable (specCanonicalSkill e) := by
  unfold specCanonicalSkill; infer_instance

/-- Canonical form amended after the counterexample: additionally the
name is nonempty and does not end in a colon (a trailing colon merges
with the serialized separator and reparses as a shorter name). -/
def canonicalSkill (e : SkillEntry) : Prop :=
  normalizeSkillName e.name = e.name ∧ e.name ≠ "" ∧ 1 ≤ e.level ∧ e.level ≤ 5 ∧
    e.name.data.getLast? ≠ some ':'

instance (e : SkillEntry) : Decidable (canonicalSkill e) := by
  unfold canonicalSkill; infer_instance

/-- Case-insensitive distinctness of the entry names. -/
def caseDistinctNames (entries : List SkillEntry) : Prop :=
  (entries.map (fun e => lowerStr e.name.data)).Nodup

instance (entries : List SkillEntry) : Decidable (caseDistinctNames entries) := by
  unfold caseDistinctNames; infer_instance

/-- Serialized line of a canonical entry. -/
def lineOf (e : SkillEntry) : List Char :=
  e.name.data ++ [':', ':'] ++ (toString (clampLevel e.level)).data

theorem string_mk_data (s : String) : String.mk s.data = s := rfl

theorem lineOf_props (e : SkillEntry) (hc : canonicalSkill e) :
    skillLine e = some (lineOf e) ∧
    lineOf e ≠ [] ∧
    ('\n' ∉ lineOf e) ∧
    jsTrim (lineOf e) = lineOf e ∧
    parseLevelFromLineL (lineOf e) = some e ∧
    csub [':', ':'] (lineOf e) = true := by
  obtain ⟨hn, hne, h1, h2, hlast⟩ := hc
  have hnd : normalizeSkillNameL e.name.data = e.name.data := congrArg String.data hn
  have hneL : e.name.data ≠ [] := by
    intro hdata
    exact hne (by rw [← string_mk_data e.name, hdata])
  have hclamp : clampLevel e.level = e.level := by
    unfold clampLevel MIN_SKILL_LEVEL MAX_SKILL_LEVEL
    rw [min_eq_right h2, max_eq_right h1]
  obtain ⟨d, hds, hdl, hdc⟩ := level_digit e.level h1 h2
  have hline : lineOf e = e.name.data ++ [':', ':', d] := by
    unfold lineOf
    rw [hclamp, hds]
    simp
  refine ⟨?_, ?_, ?_, ?_, ?_, ?_⟩
  · unfold skillLine lineOf
    rw [hnd]
    simp [hneL]
  · rw [hline]
    rcases hx : e.name.data with _ | _
    · exact absurd hx hneL
    · simp
  · rw [hline]
    intro hmem
    rcases List.mem_append.mp hmem with hm | hm
    · have hws : isJsWs '\n' = true := by decide
      have := norm_ws_space e.name.data '\n' (by rw [hnd]; exact hm) hws
      exact absurd this (by decide)
    · have hd' : d ≠ '\n' := by
        intro hdd
        rw [hdd] at hdl
        exact absurd hdl (by decide)
      rcases List.mem_cons.mp hm with h | hm2
      · exact absurd h (by decide)
      rcases List.mem_cons.mp hm2 with h | hm3
      · exact absurd h (by decide)
      rcases List.mem_cons.mp hm3 with h | hm4
      · exact hd' h.symm
      · exact absurd hm4 (List.not_mem_nil _)
  · rw [hline]
    apply jsTrim_eq_self
    · intro c hc'
      apply norm_head_not_ws e.name.data c
      rw [hnd]
      rcases hx : e.name.data with _ | ⟨a, t⟩
      · exact absurd hx hneL
      · rw [hx] at hc'
        simp at hc'
        simp [hc']
    · intro c hc'
      have he : e.name.data ++ [':', ':', d] = (e.name.data ++ [':', ':']) ++ [d] := by simp
      rw [he, List.getLast?_concat] at hc'
      have hcd : c = d := by simpa using hc'.symm
      rw [hcd]
      exact isLevelDigit_not_ws d hdl
  · rw [hline, parseLevel_canonical e.name.data d hdl hnd hneL hlast, hdc]
  · rw [hline]
    exact csub_colons e.name.data [d]

theorem dedup_id (es : List SkillEntry) : ∀ seen : List (List Char),
    (∀ e ∈ es, lowerStr e.name.data ∉ seen) →
    (es.map (fun e => lowerStr e.name.data)).Nodup → dedupSkills seen es = es := by
  induction es with
  | nil => intro seen _ _; rfl
  | cons e rest ih =>
    intro seen hseen hnodup
    have hkey : lowerStr e.name.data ∉ seen := hseen e (by simp)
    rw [dedupSkills]
    simp only [if_neg hkey]
    rw [List.map_cons, List.nodup_cons] at hnodup
    refine congrArg (e :: ·) (ih (lowerStr e.name.data :: seen) ?_ hnodup.2)
    intro e2 he2
    intro hmem
    rcases List.mem_cons.mp hmem with hm | hm
    · exact hnodup.1 (hm ▸ List.mem_map_of_mem _ he2)
    · exact hseen e2 (List.mem_cons_of_mem e he2) hm

theorem parse_serialize (entries : List SkillEntry)
    (hc : ∀ e ∈ entries, canonicalSkill e) (hd : caseDistinctNames entries) :
    parseSkillEntries (serializeSkillEntries entries) = entries := by
  by_cases hnil : entries = []
  · subst hnil; rfl
  · have hprops := fun e he => lineOf_props e (hc e he)
    have hlines : entries.filterMap skillLine = entries.map lineOf :=
      filterMap_eq_map_of skillLine lineOf entries (fun e he => (hprops e he).1)
    have hser : (serializeSkillEntries entries).data = joinSep ['\n'] (entries.map lineOf) := by
      show joinSep ['\n'] (entries.filterMap skillLine) = _
      rw [hlines]
    have hlne : ∀ m ∈ entries.map lineOf, m ≠ [] := by
      intro m hm
      obtain ⟨e, he, hme⟩ := List.mem_map.mp hm
      exact hme ▸ (hprops e he).2.1
    have hmapne : entries.map lineOf ≠ [] := by
      intro h
      exact hnil (by simpa using h)
    have hjoin_ne : joinSep ['\n'] (entries.map lineOf) ≠ [] :=
      joinSep_ne_nil _ hmapne hlne
    have htrim : jsTrim (joinSep ['\n'] (entries.map lineOf)) =
        joinSep ['\n'] (entries.map lineOf) := by
      apply jsTrim_eq_self
      · intro c hhead
        obtain ⟨m, hm, hmc⟩ := joinSep_head_mem _ hlne c hhead
        obtain ⟨e, he, hme⟩ := List.mem_map.mp hm
        subst hme
        have := (hprops e he).2.2.2.1
        exact jsTrim_head_not_ws (lineOf e) c (by rw [this]; exact hmc)
      · intro c hlastc
        obtain ⟨m, hm, hmc⟩ := joinSep_getLast_mem _ hlne c hlastc
        obtain ⟨e, he, hme⟩ := List.mem_map.mp hm
        subst hme
        have := (hprops e he).2.2.2.1
        exact jsTrim_getLast_not_ws (lineOf e) c (by rw [this]; exact hmc)
    unfold parseSkillEntries
    rw [hser, htrim]
    rw [if_neg hjoin_ne]
    have hsplit : skillRawLines (joinSep ['\n'] (entries.map lineOf)) = entries.map lineOf := by
      unfold skillRawLines
      rw [show splitNl (joinSep ['\n'] (entries.map lineOf)) = entries.map lineOf from
        splitNl_joinSep _ hmapne (by
          intro m hm
          obtain ⟨e, he, hme⟩ := List.mem_map.mp hm
          exact hme ▸ (hprops e he).2.2.1)]
      rw [map_fix jsTrim _ (by
        intro m hm
        obtain ⟨e, he, hme⟩ := List.mem_map.mp hm
        exact hme ▸ (hprops e he).2.2.2.1)]
      exact filter_ne_nil_fix _ hlne
    rw [hsplit]
    have hexp : skillExpandLines (entries.map lineOf) = entries.map lineOf := by
      rcases hes2 : entries.map lineOf with _ | ⟨m0, mrest⟩
      · rfl
      · rcases mrest with _ | ⟨m1, ms⟩
        · have hm0 : m0 ∈ entries.map lineOf := by rw [hes2]; simp
          obtain ⟨e, he, hme⟩ := List.mem_map.mp hm0
          have hcs : csub [':', ':'] m0 = true := hme ▸ (hprops e he).2.2.2.2.2
          show (if csub [':', ':'] m0 = false ∧ ',' ∈ m0 then
              ((splitOnChar ',' m0).map jsTrim).filter (· ≠ []) else [m0]) = [m0]
          rw [if_neg]
          intro hcond
          rw [hcond.1] at hcs
          exact Bool.false_ne_true hcs
        · rfl
    rw [hexp]
    have hparse : (entries.map lineOf).filterMap parseLevelFromLineL = entries := by
      rw [List.filterMap_map]
      have : entries.filterMap (parseLevelFromLineL ∘ lineOf) = entries.map id :=
        filterMap_eq_map_of _ id entries (fun e he => (hprops e he).2.2.2.2.1)
      rw [this, List.map_id]
    rw [hparse]
    exact dedup_id entries [] (by intro e _ h; exact absurd h (List.not_mem_nil _)) hd

/-! ## Claims C2 and C9 -/

/-- Claim C2, counterexample: the entry with name "a:" and level 2 is
canonical in exactly the sense the claim states (the name is a fixed
point of normalizeSkillName, names are case-insensitively distinct and
the level lies in the range), yet the round trip is not the identity:
serializing gives the line a-colon-colon-colon-2, whose reparse takes
the triple colon as separator and shortens the name to "a". -/
theorem c2_skill_roundtrip_counterexample :
    (∀ e ∈ [SkillEntry.mk "a:" 2], specCanonicalSkill e) ∧
    caseDistinctNames [SkillEntry.mk "a:" 2] ∧
    serializeSkillEntries (parseSkillEntries (serializeSkillEntries [SkillEntry.mk "a:" 2])) ≠
      serializeSkillEntries [SkillEntry.mk "a:" 2] :=
  ⟨by decide, by decide, by decide⟩

/-- Claim C2 as amended: for every list of skill entries in canonical
form (names fixed by normalizeSkillName, nonempty, not ending in a
colon, case-insensitively distinct, levels between one and five) the
serialize-parse-serialize round trip equals serialize. -/
theorem c2_skill_roundtrip (entries : List SkillEntry)
    (hc : ∀ e ∈ entries, canonicalSkill e) (hd : caseDistinctNames entries) :
    serializeSkillEntries (parseSkillEntries (serializeSkillEntries entries)) =
      serializeSkillEntries entries := by
  rw [parse_serialize entries hc hd]

/-- Witness for the amended claim C2 at a concrete canonical list. -/
theorem c2_skill_roundtrip_witness :
    (∀ e ∈ [SkillEntry.mk "React" 4, SkillEntry.mk "Node.js" 5], canonicalSkill e) ∧
    caseDistinctNames [SkillEntry.mk "React" 4, SkillEntry.mk "Node.js" 5] ∧
    serializeSkillEntries (parseSkillEntries (serializeSkillEntries
      [SkillEntry.mk "React" 4, SkillEntry.mk "Node.js" 5])) =
      serializeSkillEntries [SkillEntry.mk "React" 4, SkillEntry.mk "Node.js" 5] :=
  ⟨by decide, by decide, c2_skill_roundtrip _ (by decide) (by decide)⟩

/-- Claim C9: the code does not strip a leading bullet U+2022 from a
skill name. parseSkillEntries on a line made of the bullet, a space and
a name keeps the bullet in the returned name, because the bullet class
of normalizeSkillName contains the mojibake triple U+00E2 U+20AC U+00A2
instead of the bullet character U+2022. Hyphen and asterisk markers are
stripped as specified; this theorem evaluates the code at the failing
input of the claim. -/
theorem c9_bullet_not_stripped :
    parseSkillEntries "• React" = [SkillEntry.mk "• React" 4] ∧
    parseSkillEntries "- React" = [SkillEntry.mk "React" 4] ∧
    parseSkillEntries "* React" = [SkillEntry.mk "React" 4] :=
  ⟨by decide, by decide, by decide⟩

/-! ## Date-range formatter, from the date-format module of the repository -/

inductive DateFormatOption
  | mon_year
  | slash_month_year
  | year
deriving DecidableEq, Repr

def MONTHS_SHORT : List String :=
  ["Jan", "Feb", "Mar", "Apr", "May", "Jun", "Jul", "Aug", "Sep", "Oct", "Nov", "Dec"]

/-- The monthMap lookup: a lower-cased three-letter month name to its
one-based month number. -/
def monthLookup (name3 : List Char) : Option Nat :=
  if name3 = "jan".data then some 1 else if name3 = "feb".data then some 2
  else if name3 = "mar".data then some 3 else if name3 = "apr".data then some 4
  else if name3 = "may".data then some 5 else if name3 = "jun".data then some 6
  else if name3 = "jul".data then some 7 else if name3 = "aug".data then some 8
  else if name3 = "sep".data then some 9 else if name3 = "oct".data then some 10
  else if name3 = "nov".data then some 11 else if name3 = "dec".data then some 12
  else none

def digitsToNat (ds : List Char) : Nat :=
  ds.foldl (fun acc c => acc * 10 + (c.toNat - 48)) 0

/-- Year-only regex of parseMonthYear: exactly four digits. -/
def yearOnlyAttempt (v : List Char) : Option (Nat × Nat) :=
  if v.length = 4 ∧ v.all isAsciiDigit then some (1, digitsToNat v) else none

/-- parseMonthYear of the date-format module: a short month name plus
a four-digit year, else a one-or-two-digit month, a slash and a
four-digit year, else a bare four-digit year; anything else is none. -/
def parseMonthYear (value : List Char) : Option (Nat × Nat) :=
  let v := jsTrim value
  let letters := v.takeWhile isAsciiAlpha
  let afterL := v.drop letters.length
  let wsRun := afterL.takeWhile isJsWs
  let afterW := afterL.drop wsRun.length
  let shortAttempt : Option (Nat × Nat) :=
    if 3 ≤ letters.length ∧ letters.length ≤ 9 ∧ wsRun ≠ [] ∧
        afterW.length = 4 ∧ afterW.all isAsciiDigit then
      (monthLookup (lowerStr (letters.take 3))).map (fun m => (m, digitsToNat afterW))
    else none
  match shortAttempt with
  | some r => some r
  | none =>
    let d1 := v.takeWhile isAsciiDigit
    let afterD := v.drop d1.length
    match afterD with
    | '/' :: rest =>
      if (d1.length = 1 ∨ d1.length = 2) ∧ rest.length = 4 ∧ rest.all isAsciiDigit ∧
          1 ≤ digitsToNat d1 ∧ digitsToNat d1 ≤ 12 then
        some (digitsToNat d1, digitsToNat rest)
      else yearOnlyAttempt v
    | _ => yearOnlyAttempt v

/-- Month number rendered with a leading zero pad to two characters. -/
def padMonth (m : Nat) : List Char :=
  if m < 10 then '0' :: (toString m).data else (toString m).data

/-- formatMonthYear of the date-format module. The month index is
always in range because it comes from parseMonthYear. -/
def formatMonthYear (my : Nat × Nat) (format : DateFormatOption) : List Char :=
  match format with
  | .year => (toString my.2).data
  | .slash_month_year => padMonth my.1 ++ '/' :: (toString my.2).data
  | .mon_year => (MONTHS_SHORT.getD (my.1 - 1) "").data ++ ' ' :: (toString my.2).data

/-- Case-insensitive whole-token match of the word present. -/
def presentCi (t : List Char) : Bool := lowerStr t = "present".data

/-- formatSingleToken of the date-format module. -/
def formatSingleToken (value : List Char) (format : DateFormatOption) : List Char :=
  let token := jsTrim value
  if token = [] then token
  else if presentCi token then "Present".data
  else
    match parseMonthYear token with
    | none => token
    | some my => formatMonthYear my format

/-- Dash class of the range normalizer: en dash, em dash, hyphen. -/
def isRangeDash (c : Char) : Bool := c = '–' || c = '—' || c = '-'

/-- Global replace of optional whitespace, one range dash and optional
whitespace by the canonical space em-dash space, scanning left to
right. -/
def normDashesF : Nat → List Char → List Char
  | 0, l => l
  | _ + 1, [] => []
  | fuel + 1, c :: rest =>
    match (c :: rest).dropWhile isJsWs with
    | d :: tail =>
      if isRangeDash d then
        ' ' :: '—' :: ' ' :: normDashesF fuel (tail.dropWhile isJsWs)
      else c :: normDashesF fuel rest
    | [] => c :: normDashesF fuel rest

def normDashes (l : List Char) : List Char := normDashesF (l.length + 1) l

/-- Model of String.prototype.split with the three-character separator
space em-dash space. -/
def splitEmDashF : Nat → List Char → List (List Char)
  | 0, l => [l]
  | _ + 1, [] => [[]]
  | fuel + 1, c :: rest =>
    if c = ' ' ∧ ['—', ' '].isPrefixOf rest then
      [] :: splitEmDashF fuel (rest.drop 2)
    else
      match splitEmDashF fuel rest with
      | [] => [[c]]
      | g :: gs => (c :: g) :: gs

def splitOnEmDashSep (l : List Char) : List (List Char) := splitEmDashF (l.length + 1) l

/-- formatDateRange of the date-format module. -/
def formatDateRange (value : String) (format : DateFormatOption) : String :=
  let input := jsTrim value.data
  if input = [] then ""
  else
    let normalized := normDashes input
    let parts := ((splitOnEmDashSep normalized).map jsTrim).filter (· ≠ [])
    match parts with
    | [] => ⟨input⟩
    | [p] => ⟨formatSingleToken p format⟩
    | p1 :: p2 :: _ => ⟨formatSingleToken p1 format ++ " — ".data ++ formatSingleToken p2 format⟩

/-- Claim C7: the two date-formatting examples of the specification.
The slash month March 2021 with an open end renders in month-year
format as Mar 2021 em-dash Present, and the bare year range renders in
year format with the spaced em dash. -/
theorem c7_date_format_examples :
    formatDateRange "03/2021 - Present" DateFormatOption.mon_year = "Mar 2021 — Present" ∧
    formatDateRange "2019-2021" DateFormatOption.year = "2019 — 2021" :=
  ⟨by decide, by decide⟩

/-! ## CV text segmentation and item building, from src/lib/cv-import.ts -/

inductive CvSectionType
  | experience
  | education
  | skills
  | certifications
  | projects
  | custom
deriving DecidableEq, Repr

structure ParsedSection where
  type : CvSectionType
  title : String
  blocks : List String
deriving DecidableEq, Repr

/-- Replace of every carriage return by a line feed. -/
def replCR (l : List Char) : List Char := l.map (fun c => if c = '\r' then '\n' else c)

/-- normalizeLines of src/lib/cv-import.ts: split into lines, collapse
whitespace runs, trim, drop empties. -/
def normalizeLinesL (text : List Char) : List (List Char) :=
  ((splitNl (replCR text)).map (fun l => jsTrim (collapseWs l))).filter (· ≠ [])

/-- Title-case regex of looksLikeHeading: an upper-case letter, one or
more lower-case letters, then any number of groups of whitespace, an
upper-case letter and one or more lower-case letters, to the end. -/
def titleCaseF : Nat → List Char → Bool
  | 0, _ => false
  | fuel + 1, l =>
    match l with
    | u :: rest =>
      if isAsciiUpper u then
        let lows := rest.takeWhile isAsciiLower
        if lows = [] then false
        else
          let after := rest.drop lows.length
          if after = [] then true
          else
            let ws := after.takeWhile isJsWs
            if ws = [] then false
            else titleCaseF fuel (after.drop ws.length)
      else false
    | [] => false

def titleCase (l : List Char) : Bool := titleCaseF (l.length + 1) l

/-- looksLikeHeading of src/lib/cv-import.ts. The floating-point ratio
test (upper over alpha greater than seven tenths) is modelled exactly
by the integer comparison ten times upper greater than seven times
alpha; with at most forty-two letters the double rounding of the
division can never cross the constant. -/
def looksLikeHeading (line : List Char) : Bool :=
  if line.length > 42 then false
  else
    let alpha := line.filter isAsciiAlpha
    if alpha.length < 4 then false
    else
      decide (10 * (alpha.filter isAsciiUpper).length > 7 * alpha.length) || titleCase line

/-- Leading bullet strip shared by cleanHeading and the item builder:
one character of the class hyphen, bullet, asterisk followed by a
whitespace run is removed. -/
def stripLineBullet (l : List Char) : List Char :=
  match l with
  | c :: c2 :: rest =>
    if (c = '-' || c = '•' || c = '*') && isJsWs c2 then (c2 :: rest).dropWhile isJsWs else l
  | _ => l

def isHeadTail (c : Char) : Bool := c = ':' || c = '–' || c = '—' || c = '-'

/-- cleanHeading of src/lib/cv-import.ts: trim, strip one leading
bullet, strip the trailing run of colons and dashes, trim again. -/
def cleanHeading (l : List Char) : List Char :=
  jsTrim ((stripLineBullet (jsTrim l)).rdropWhile isHeadTail)

/-- headingToSection of src/lib/cv-import.ts. -/
def headingToSection (heading : List Char) : Option (CvSectionType × String) :=
  let h := lowerStr (cleanHeading heading)
  if h ∈ ["experience".data, "work experience".data, "professional experience".data,
      "employment".data, "employment history".data] then
    some (CvSectionType.experience, "Experience")
  else if h ∈ ["education".data, "academic".data, "academics".data] then
    some (CvSectionType.education, "Education")
  else if h ∈ ["skills".data, "technical skills".data, "core skills".data] then
    some (CvSectionType.skills, "Skills")
  else if h ∈ ["courses".data, "coursework".data, "certificates".data, "certifications".data,
      "certification".data, "training".data] then
    some (CvSectionType.certifications, "Certificates")
  else if h ∈ ["projects".data, "project".data, "selected projects".data] then
    some (CvSectionType.projects, "Projects")
  else if csub "missing".data h = true ∧ csub "custom".data h = true ∧
      csub "translation".data h = true then
    some (CvSectionType.projects, "Projects")
  else if h ∈ ["summary".data, "profile".data, "about".data] then
    some (CvSectionType.custom, "Summary")
  else none

/-- Test of the leading bullet pattern: one marker character followed
by at least one whitespace character. -/
def isBulletLineCv (l : List Char) : Bool :=
  match l with
  | c :: c2 :: _ => (c = '-' || c = '•' || c = '*') && isJsWs c2
  | _ => false

/-- Block grouping of splitBlocks: a bullet line with a nonempty
buffer flushes the buffer as one block. -/
def splitBlocksGo : List (List Char) → List (List Char) → List (List Char)
  | buf, [] => if buf = [] then [] else [joinSep ['\n'] buf]
  | buf, line :: rest =>
    if isBulletLineCv line = true ∧ buf ≠ [] then
      joinSep ['\n'] buf :: splitBlocksGo [line] rest
    else splitBlocksGo (buf ++ [line]) rest

/-- splitBlocks of src/lib/cv-import.ts. -/
def splitBlocks (lines : List (List Char)) : List (List Char) :=
  ((splitBlocksGo [] lines).map jsTrim).filter (· ≠ [])

/-- Section segmentation state of the parseCvText loop. -/
structure SegState where
  sections : List ParsedSection
  current : Option (CvSectionType × String)
  currentLines : List (List Char)

/-- One line of the parseCvText section loop. A recognized heading
flushes the current section (when one is open; the buffered lines are
kept otherwise, as in the source) and opens the mapped section; any
other line extends the buffer. -/
def segStep (st : SegState) (line : List Char) : SegState :=
  if looksLikeHeading line = true then
    match headingToSection line with
    | some (t, title) =>
      match st.current with
      | some (ct, ctitle) =>
        { sections := st.sections ++
            [⟨ct, ctitle, (splitBlocks st.currentLines).map (fun b => (⟨b⟩ : String))⟩],
          current := some (t, title), currentLines := [] }
      | none => { st with current := some (t, title) }
    | none => { st with currentLines := st.currentLines ++ [line] }
  else { st with currentLines := st.currentLines ++ [line] }

/-- Final flush of the section loop. -/
def segFinish (st : SegState) : List ParsedSection :=
  match st.current with
  | some (t, title) =>
    st.sections ++ [⟨t, title, (splitBlocks st.currentLines).map (fun b => (⟨b⟩ : String))⟩]
  | none => st.sections

/-- Section part of parseCvText of src/lib/cv-import.ts: the
segmentation loop, the final flush and the single custom Content
fallback when no non-custom section was recognized. The basics
extraction of parseCvText writes only the basics record and does not
influence the returned sections. -/
def parseCvSections (text : String) : List ParsedSection :=
  if (segFinish ((normalizeLinesL text.data).foldl segStep ⟨[], none, []⟩)).any
      (fun s => s.type ≠ CvSectionType.custom) then
    segFinish ((normalizeLinesL text.data).foldl segStep ⟨[], none, []⟩)
  else
    [⟨CvSectionType.custom, "Content",
      (splitBlocks ((normalizeLinesL text.data).take 200)).map (fun b => (⟨b⟩ : String))⟩]

def monthNames3 : List (List Char) :=
  ["jan".data, "feb".data, "mar".data, "apr".data, "may".data, "jun".data,
   "jul".data, "aug".data, "sep".data, "oct".data, "nov".data, "dec".data]

/-- Dash class of the trailing date regex: em dash or hyphen. -/
def isTailDash (c : Char) : Bool := c = '—' || c = '-'

/-- Chop a case-insensitive three-letter month name off the front. -/
def month3Chop (l : List Char) : Option (List Char) :=
  if lowerStr (l.take 3) ∈ monthNames3 then some (l.drop 3) else none

/-- Inner month-year arm of the trailing date regex: month name, a
whitespace run, four digits, then the end of the string. -/
def monthYearEndTail (l : List Char) : Bool :=
  match month3Chop l with
  | some rest =>
    let ws := rest.takeWhile isJsWs
    let afterW := rest.drop ws.length
    decide (ws ≠ []) && decide (afterW.length = 4) && afterW.all isAsciiDigit
  | none => false

/-- First alternative of the trailing date regex: month name and year,
with an optional dash and second month-year or Present, anchored at
the end of the string. -/
def monthRangeEnd (l : List Char) : Bool :=
  match month3Chop l with
  | some rest =>
    let ws := rest.takeWhile isJsWs
    let afterW := rest.drop ws.length
    let d := afterW.take 4
    decide (ws ≠ []) && decide (d.length = 4) && d.all isAsciiDigit &&
      (decide (afterW.drop 4 = []) ||
        (match (afterW.drop 4).dropWhile isJsWs with
         | c :: rest2 =>
           isTailDash c &&
             (monthYearEndTail (rest2.dropWhile isJsWs) ||
               decide (lowerStr (rest2.dropWhile isJsWs) = "present".data))
         | [] => false))
  | none => false

/-- Second alternative of the trailing date regex: four digits, a
dash, then four digits or Present, anchored at the end. -/
def yearRangeEnd (l : List Char) : Bool :=
  (decide ((l.take 4).length = 4) && (l.take 4).all isAsciiDigit) &&
    (match (l.drop 4).dropWhile isJsWs with
     | c :: rest =>
       isTailDash c &&
         ((decide ((rest.dropWhile isJsWs).length = 4) &&
             (rest.dropWhile isJsWs).all isAsciiDigit) ||
           decide (lowerStr (rest.dropWhile isJsWs) = "present".data))
     | [] => false)

def dateTailHere (l : List Char) : Bool := monthRangeEnd l || yearRangeEnd l

/-- Leftmost position whose suffix matches the trailing date regex:
returns the prefix before the match and the matched suffix. -/
def dateTailSearch : List Char → Option (List Char × List Char)
  | [] => none
  | c :: rest =>
    if dateTailHere (c :: rest) = true then some ([], c :: rest)
    else (dateTailSearch rest).map (fun pm => (c :: pm.1, pm.2))

def isMainTailStrip (c : Char) : Bool :=
  c = ',' || isJsWs c || c = '–' || c = '—' || c = '-'

/-- splitDateTail of src/lib/cv-import.ts: collapse whitespace, trim,
find the trailing date range, strip trailing separators off the main
part and canonicalize the dashes of the range. -/
def splitDateTailL (value : List Char) : List Char × List Char :=
  let text := jsTrim (collapseWs value)
  match dateTailSearch text with
  | none => (text, [])
  | some (pre, matched) =>
    (jsTrim (pre.rdropWhile isMainTailStrip), normDashes matched)

/-- splitTitleSubtitle of src/lib/cv-import.ts. -/
def splitTitleSubtitleL (value : List Char) : List Char × List Char :=
  let parts := ((splitOnChar ',' value).map jsTrim).filter (· ≠ [])
  match parts with
  | [] => (jsTrim value, [])
  | [_] => (jsTrim value, [])
  | p1 :: ptail => (p1, joinSep [',', ' '] ptail)

structure CvItemLite where
  title : String
  subtitle : String
  dateRange : String
  description : String
deriving DecidableEq, Repr

/-- Experience item construction of profileFromParsedCv in
src/lib/cv-import.ts: the first line of the block is split into a
trailing date range, a title and a subtitle; the remaining lines are
re-bulleted into the description. -/
def experienceItemFromBlock (block : String) : CvItemLite :=
  let lines := ((splitNl block.data).map jsTrim).filter (· ≠ [])
  let header := lines.headD []
  let md := splitDateTailL header
  let ts := splitTitleSubtitleL md.1
  let bullets := ((lines.drop 1).map (fun l => jsTrim (stripLineBullet l))).filter (· ≠ [])
  ⟨⟨ts.1⟩, ⟨ts.2⟩, ⟨md.2⟩, ⟨joinSep ['\n'] (bullets.map (fun l => '-' :: ' ' :: l))⟩⟩

/-! ## Claims C4 and C10 -/

/-- The five-line document of the section-segmentation example. -/
def c4Doc : String :=
  "EXPERIENCE\nEng, Acme  Jan 2020 - Present\n- Did X\nEDUCATION\nBS CS, State U  2016 - 2020"

/-- Claim C4, counterexample: on the example document the claim as
stated is false, because the experience section does not contain
exactly one block: splitBlocks flushes the header when the bullet line
arrives, so the experience section has the two blocks header and
bullet. The kinds, order and item fields of the claim do hold. -/
theorem c4_counterexample :
    ¬((parseCvSections c4Doc).map (fun s => s.type) =
        [CvSectionType.experience, CvSectionType.education] ∧
      (∀ s ∈ parseCvSections c4Doc, s.blocks.length = 1) ∧
      experienceItemFromBlock (((parseCvSections c4Doc).headD
        ⟨CvSectionType.custom, "", []⟩).blocks.headD "") =
        CvItemLite.mk "Eng" "Acme" "Jan 2020 — Present" "") := by
  intro h
  exact absurd (h.2.1 ⟨CvSectionType.experience, "Experience",
    ["Eng, Acme Jan 2020 - Present", "- Did X"]⟩ (by decide)) (by decide)

/-- Claim C4 as amended: the example document parses into exactly two
sections, experience then education; the experience section holds two
blocks (the header block and the bullet block), the education section
one block; and the experience item built from the first experience
block has title Eng, subtitle Acme and date range Jan 2020 em-dash
Present. -/
theorem c4_segmentation :
    parseCvSections c4Doc =
      [⟨CvSectionType.experience, "Experience", ["Eng, Acme Jan 2020 - Present", "- Did X"]⟩,
       ⟨CvSectionType.education, "Education", ["BS CS, State U 2016 - 2020"]⟩] ∧
    experienceItemFromBlock "Eng, Acme Jan 2020 - Present" =
      CvItemLite.mk "Eng" "Acme" "Jan 2020 — Present" "" :=
  ⟨by decide, by decide⟩

/-- Invariant of the segmentation loop for claim C10: every flushed
section and the open section are of the custom kind. -/
def SegAllCustom (st : SegState) : Prop :=
  (∀ s ∈ st.sections, s.type = CvSectionType.custom) ∧
  (∀ p : CvSectionType × String, st.current = some p → p.1 = CvSectionType.custom)

theorem segStep_custom (st : SegState) (line : List Char)
    (hline : ¬(looksLikeHeading line = true ∧
      ∃ p : CvSectionType × String, headingToSection line = some p ∧ p.1 ≠ CvSectionType.custom))
    (hst : SegAllCustom st) : SegAllCustom (segStep st line) := by
  unfold segStep
  by_cases hl : looksLikeHeading line = true
  · rw [if_pos hl]
    rcases hh : headingToSection line with _ | ⟨t, title⟩
    · exact ⟨hst.1, hst.2⟩
    · have ht : t = CvSectionType.custom := by
        by_contra hne
        exact hline ⟨hl, ⟨(t, title), hh, hne⟩⟩
      rcases hc : st.current with _ | ⟨ct, ctitle⟩
      · refine ⟨hst.1, ?_⟩
        intro p hp
        simp at hp
        rw [← hp]
        exact ht
      · constructor
        · intro s hs
          rcases List.mem_append.mp hs with hm | hm
          · exact hst.1 s hm
          · simp at hm
            rw [hm]
            exact hst.2 (ct, ctitle) hc
        · intro p hp
          simp at hp
          rw [← hp]
          exact ht
  · rw [if_neg hl]
    exact ⟨hst.1, hst.2⟩

theorem foldl_seg_custom (lines : List (List Char)) : ∀ st : SegState,
    (∀ l ∈ lines, ¬(looksLikeHeading l = true ∧
      ∃ p : CvSectionType × String, headingToSection l = some p ∧ p.1 ≠ CvSectionType.custom)) →
    SegAllCustom st → SegAllCustom (lines.foldl segStep st) := by
  induction lines with
  | nil => intro st _ hst; exact hst
  | cons l rest ih =>
    intro st hl hst
    rw [List.foldl_cons]
    exact ih (segStep st l) (fun m hm => hl m (List.mem_cons_of_mem l hm))
      (segStep_custom st l (hl l (List.mem_cons_self l rest)) hst)

/-- Claim C10: when no normalized line is both accepted by the heading
shape test and mapped to a non-custom section kind, parseCvText yields
exactly one custom section titled Content whose blocks are the block
split of at most the first two hundred normalized lines; custom
sections segmented along the way are discarded by the fallback. -/
theorem c10_no_heading_fallback (text : String)
    (h : ∀ line ∈ normalizeLinesL text.data,
      ¬(looksLikeHeading line = true ∧
        ∃ p : CvSectionType × String, headingToSection line = some p ∧
          p.1 ≠ CvSectionType.custom)) :
    parseCvSections text =
      [⟨CvSectionType.custom, "Content",
        (splitBlocks ((normalizeLinesL text.data).take 200)).map (fun b => (⟨b⟩ : String))⟩] := by
  have hfold : SegAllCustom ((normalizeLinesL text.data).foldl segStep ⟨[], none, []⟩) :=
    foldl_seg_custom _ _ h ⟨by intro s hs; exact absurd hs (List.not_mem_nil s), by
      intro p hp; exact absurd hp (by simp)⟩
  have hfin : ∀ s ∈ segFinish ((normalizeLinesL text.data).foldl segStep ⟨[], none, []⟩),
      s.type = CvSectionType.custom := by
    intro s hs
    unfold segFinish at hs
    rcases hc : ((normalizeLinesL text.data).foldl segStep ⟨[], none, []⟩).current with _ | ⟨t, title⟩
    · rw [hc] at hs
      exact hfold.1 s hs
    · rw [hc] at hs
      rcases List.mem_append.mp hs with hm | hm
      · exact hfold.1 s hm
      · simp at hm
        rw [hm]
        exact hfold.2 (t, title) hc
  have hany : (segFinish ((normalizeLinesL text.data).foldl segStep ⟨[], none, []⟩)).any
      (fun s => s.type ≠ CvSectionType.custom) = false := by
    rw [List.any_eq_false]
    intro s hs
    simp [hfin s hs]
  unfold parseCvSections
  rw [hany]
  simp

/-- Witness for claim C10 at a concrete heading-free document. -/
theorem c10_no_heading_fallback_witness :
    (∀ line ∈ normalizeLinesL ("just some text\n- bullet one\nother" : String).data,
      ¬(looksLikeHeading line = true ∧
        ∃ p : CvSectionType × String, headingToSection line = some p ∧
          p.1 ≠ CvSectionType.custom)) ∧
    parseCvSections "just some text\n- bullet one\nother" =
      [⟨CvSectionType.custom, "Content",
        (splitBlocks ((normalizeLinesL ("just some text\n- bullet one\nother" : String).data).take
          200)).map (fun b => (⟨b⟩ : String))⟩] :=
  ⟨by decide, c10_no_heading_fallback _ (by decide)⟩

/-! ## Contact lines, from the contact module of the repository -/

/-- CvBasics of src/lib/cv-profile.ts. contactLines receives the full
profile record but reads only the basics field, so the model passes
the basics record directly; the other profile fields cannot influence
any claim here. -/
structure CvBasics where
  name : String
  headline : String
  email : String
  phone : String
  url : String
  summary : String
  location : String
deriving DecidableEq, Repr

inductive ContactKind
  | location
  | email
  | phone
  | url
deriving DecidableEq, Repr

structure ContactLine where
  kind : ContactKind
  value : String
deriving DecidableEq, Repr

def isPhoneKeep (c : Char) : Bool :=
  isAsciiDigit c || c = '+' || c = '(' || c = ')' || c = '.' || isJsWs c || c = '-'

/-- normalizePhoneDisplay of the contact module: trim, drop characters
outside the phone class, collapse whitespace runs. -/
def normalizePhoneDisplay (l : List Char) : List Char :=
  collapseWs ((jsTrim l).filter isPhoneKeep)

/-- Strip one leading scheme and one leading www prefix, both
case-insensitively. -/
def stripSchemeWww (l : List Char) : List Char :=
  let l1 :=
    if lowerStr (l.take 8) = "https://".data then l.drop 8
    else if lowerStr (l.take 7) = "http://".data then l.drop 7
    else l
  if lowerStr (l1.take 4) = "www.".data then l1.drop 4 else l1

def isUrlTrail (c : Char) : Bool := c = ')' || c = ',' || c = '.' || c = ';'

/-- normalizeUrlDisplay of the contact module: trim, strip scheme and
www, strip trailing punctuation then trailing slashes, and keep the
first slash-separated segment (or everything when that segment is
empty). -/
def normalizeUrlDisplay (l : List Char) : List Char :=
  let wt := (((stripSchemeWww (jsTrim l)).rdropWhile isUrlTrail).rdropWhile (· = '/'))
  match splitOnChar '/' wt with
  | [] => wt
  | h :: _ => if h = [] then wt else h

def contactKey (line : ContactLine) : ContactKind × List Char :=
  (line.kind, lowerStr (jsTrim line.value.data))

/-- De-duplication of contact lines by kind and lower-cased trimmed
value, keeping first occurrences, as in contactLines. -/
def dedupContacts : List (ContactKind × List Char) → List ContactLine → List ContactLine
  | _, [] => []
  | seen, line :: rest =>
    if contactKey line ∈ seen then dedupContacts seen rest
    else line :: dedupContacts (contactKey line :: seen) rest

/-- contactLines of the contact module: build the four possible lines,
filter out any line whose trimmed lower-cased value is the literal
gmail.com, then de-duplicate. -/
def contactLines (basics : CvBasics) : List ContactLine :=
  let built : List ContactLine :=
    (if basics.location ≠ "" then [⟨ContactKind.location, basics.location⟩] else []) ++
    (if basics.email ≠ "" then [⟨ContactKind.email, basics.email⟩] else []) ++
    (if basics.phone ≠ "" then
      [⟨ContactKind.phone, ⟨normalizePhoneDisplay basics.phone.data⟩⟩] else []) ++
    (if basics.url ≠ "" ∧ normalizeUrlDisplay basics.url.data ≠ [] then
      [⟨ContactKind.url, ⟨normalizeUrlDisplay basics.url.data⟩⟩] else [])
  dedupContacts []
    (built.filter (fun line => lowerStr (jsTrim line.value.data) ≠ "gmail.com".data))

/-- EMAIL_PROVIDER_DENYLIST of src/lib/cv-import.ts. -/
def EMAIL_PROVIDER_DENYLIST : List String :=
  ["gmail.com", "googlemail.com", "outlook.com", "hotmail.com", "live.com",
   "yahoo.com", "icloud.com", "proton.me", "protonmail.com"]

/-- Lower-cased domain of the email of the basics record, the part
after the first at sign, as computed at the URL filter of parseCvText. -/
def emailDomain (basics : CvBasics) : Option (List Char) :=
  match splitOnChar '@' basics.email.data with
  | _ :: d :: _ => some (lowerStr d)
  | _ => none

/-- Claim C5 exactly as stated: no url line of contactLines displays a
denylist domain or the domain of the own email address. -/
def c5SpecProp (basics : CvBasics) : Prop :=
  ∀ line ∈ contactLines basics, line.kind = ContactKind.url →
    ((⟨lowerStr line.value.data⟩ : String) ∉ EMAIL_PROVIDER_DENYLIST ∧
      emailDomain basics ≠ some (lowerStr line.value.data))

instance (basics : CvBasics) : Decidable (c5SpecProp basics) := by
  unfold c5SpecProp; infer_instance

/-- Claim C5, counterexample: with email at yahoo.com and url
yahoo.com, contactLines keeps the url line whose displayed value is
both a denylist domain and the domain of the own email address. Only
the literal gmail.com is filtered by contactLines; the full denylist
and the own-domain filter run earlier, inside parseCvText. -/
theorem c5_counterexample :
    ¬ c5SpecProp (CvBasics.mk "" "" "a@yahoo.com" "" "https://yahoo.com" "" "") := by decide

theorem dedupContacts_mem (rest : List ContactLine) : ∀ seen line,
    line ∈ dedupContacts seen rest → line ∈ rest := by
  induction rest with
  | nil => intro seen line h; exact absurd h (List.not_mem_nil line)
  | cons x t ih =>
    intro seen line h
    rw [dedupContacts] at h
    by_cases hk : contactKey x ∈ seen
    · rw [if_pos hk] at h
      exact List.mem_cons_of_mem x (ih seen line h)
    · rw [if_neg hk] at h
      rcases List.mem_cons.mp h with hm | hm
      · exact hm ▸ List.mem_cons_self x t
      · exact List.mem_cons_of_mem x (ih _ line hm)

/-- Claim C5 as amended: for every basics record, no line of
contactLines (of any kind) has the trimmed lower-cased value
gmail.com, the single consumer-provider domain this function filters;
the full denylist and the own-email-domain exclusion apply during URL
extraction in parseCvText, not here. -/
theorem c5_gmail_filter (basics : CvBasics) :
    ∀ line ∈ contactLines basics, lowerStr (jsTrim line.value.data) ≠ "gmail.com".data := by
  intro line hline
  have hmem := dedupContacts_mem _ [] line hline
  have := List.mem_filter.mp hmem
  simpa using this.2

/-- Witness for the amended claim C5 at a concrete basics record. -/
theorem c5_gmail_filter_witness :
    ContactLine.mk ContactKind.email "a@gmail.com" ∈
      contactLines (CvBasics.mk "" "" "a@gmail.com" "" "gmail.com" "" "") ∧
    lowerStr (jsTrim ("a@gmail.com" : String).data) ≠ "gmail.com".data :=
  ⟨by decide, c5_gmail_filter (CvBasics.mk "" "" "a@gmail.com" "" "gmail.com" "" "")
    (ContactLine.mk ContactKind.email "a@gmail.com") (by decide)⟩

/-! ## Description block model, from src/lib/description-format.ts -/

structure InlineRun where
  text : String
  bold : Bool
  italic : Bool
  underline : Bool
deriving DecidableEq, Repr

inductive BlockKind
  | heading
  | para
  | bullet
  | numbered
deriving DecidableEq, Repr

structure DescriptionBlock where
  kind : BlockKind
  runs : List InlineRun
deriving DecidableEq, Repr

/-- Case-insensitive global replace of a fixed pattern (given lower
case) by a fixed replacement, scanning left to right. -/
def replaceAllCiF (pat repl : List Char) : Nat → List Char → List Char
  | 0, l => l
  | _ + 1, [] => []
  | fuel + 1, c :: rest =>
    if lowerStr ((c :: rest).take pat.length) = pat ∧ pat ≠ [] then
      repl ++ replaceAllCiF pat repl fuel ((c :: rest).drop pat.length)
    else c :: replaceAllCiF pat repl fuel rest

def replaceAllCi (pat repl l : List Char) : List Char :=
  replaceAllCiF pat repl (l.length + 1) l

/-- One UTF-16 unit of String.fromCharCode, kept only when it is a
valid scalar value (a lone surrogate leaves the entity text in place). -/
def jsFromCharCode (n : Nat) : Option Char :=
  let m := n % 65536
  if m < 55296 ∨ 57344 ≤ m then some (Char.ofNat m) else none

/-- Numeric entity replace of decodeHtmlEntities: ampersand, hash, a
digit run and a semicolon become the character of that code. -/
def decodeNumericF : Nat → List Char → List Char
  | 0, l => l
  | _ + 1, [] => []
  | fuel + 1, '&' :: '#' :: rest =>
    (match rest.drop (rest.takeWhile isAsciiDigit).length with
     | ';' :: tail =>
       if rest.takeWhile isAsciiDigit ≠ [] then
         match jsFromCharCode (digitsToNat (rest.takeWhile isAsciiDigit)) with
         | some ch => ch :: decodeNumericF fuel tail
         | none => '&' :: decodeNumericF fuel ('#' :: rest)
       else '&' :: decodeNumericF fuel ('#' :: rest)
     | _ => '&' :: decodeNumericF fuel ('#' :: rest))
  | fuel + 1, c :: rest => c :: decodeNumericF fuel rest

def decodeNumeric (l : List Char) : List Char := decodeNumericF (l.length + 1) l

/-- decodeHtmlEntities of src/lib/description-format.ts: six named
replaces in source order, then the numeric replace. -/
def decodeHtmlEntities (l : List Char) : List Char :=
  decodeNumeric (replaceAllCi ['&', '#', '3', '9', ';'] [Char.ofNat 39]
    (replaceAllCi "&quot;".data [Char.ofNat 34]
      (replaceAllCi "&gt;".data ">".data
        (replaceAllCi "&lt;".data "<".data
          (replaceAllCi "&amp;".data "&".data
            (replaceAllCi "&nbsp;".data " ".data l))))))

/-- escapeHtml of src/lib/description-format.ts. The five sequential
global replaces are equivalent to this per-character map because the
ampersand pass runs first and no replacement reintroduces a character
of a later pass. -/
def escapeHtmlChar (c : Char) : List Char :=
  if c = '&' then "&amp;".data
  else if c = '<' then "&lt;".data
  else if c = '>' then "&gt;".data
  else if c = Char.ofNat 34 then "&quot;".data
  else if c = Char.ofNat 39 then ['&', '#', '3', '9', ';']
  else [c]

def escapeHtml (l : List Char) : List Char := l.flatMap escapeHtmlChar

/-- pushRun of src/lib/description-format.ts: an empty run is dropped
and a run with the formatting of the last run is merged into it. -/
def pushRunGo : List InlineRun → InlineRun → List InlineRun
  | [], n => [n]
  | [r], n =>
    if r.bold = n.bold ∧ r.italic = n.italic ∧ r.underline = n.underline then
      [⟨⟨r.text.data ++ n.text.data⟩, r.bold, r.italic, r.underline⟩]
    else [r, n]
  | r :: r2 :: rest, n => r :: pushRunGo (r2 :: rest) n

def pushRun (runs : List InlineRun) (n : InlineRun) : List InlineRun :=
  if n.text = "" then runs else pushRunGo runs n

def runsHaveText (runs : List InlineRun) : Bool :=
  runs.any (fun r => jsTrim r.text.data ≠ [])

/-- blockText of src/lib/description-format.ts: concatenated run text
with whitespace runs collapsed and trimmed. -/
def blockTextL (b : DescriptionBlock) : List Char :=
  jsTrim (collapseWs ((b.runs.map (fun r => r.text.data)).flatten))

/-- Bullet-line match of the legacy dialect: marker, whitespace run,
and the rest of the line as the group. -/
def bulletMatch (l : List Char) : Option (List Char) :=
  match l with
  | c :: c2 :: rest =>
    if (c = '-' || c = '•' || c = '*') && isJsWs c2 then
      some ((c2 :: rest).dropWhile isJsWs)
    else none
  | _ => none

def endsPunct (l : List Char) : Bool :=
  match l.getLast? with
  | some c => c = '.' || c = '!' || c = '?'
  | none => false

/-- Month-year as a prefix (month name, whitespace run, four digits),
for the unanchored date-range search. -/
def monthYearFollows (l : List Char) : Bool :=
  match month3Chop l with
  | some rest =>
    let ws := rest.takeWhile isJsWs
    let afterW := rest.drop ws.length
    decide (ws ≠ []) && decide ((afterW.take 4).length = 4) && (afterW.take 4).all isAsciiDigit
  | none => false

def presentFollows (l : List Char) : Bool := lowerStr (l.take 7) = "present".data

/-- One-position match of the date-range regex of the heading
heuristics (unanchored): a month-year, a dash and a month-year or
Present, or a four-digit year, a dash and a year or Present. -/
def dateRangeHere (l : List Char) : Bool :=
  (match month3Chop l with
   | some rest =>
     let ws := rest.takeWhile isJsWs
     let afterW := rest.drop ws.length
     decide (ws ≠ []) && decide ((afterW.take 4).length = 4) && (afterW.take 4).all isAsciiDigit &&
       (match (afterW.drop 4).dropWhile isJsWs with
        | c :: rest2 =>
          isTailDash c &&
            (monthYearFollows (rest2.dropWhile isJsWs) ||
              presentFollows (rest2.dropWhile isJsWs))
        | [] => false)
   | none => false) ||
  ((decide ((l.take 4).length = 4) && (l.take 4).all isAsciiDigit) &&
    (match (l.drop 4).dropWhile isJsWs with
     | c :: rest =>
       isTailDash c &&
         ((decide (((rest.dropWhile isJsWs).take 4).length = 4) &&
             ((rest.dropWhile isJsWs).take 4).all isAsciiDigit) ||
           presentFollows (rest.dropWhile isJsWs))
     | [] => false))

def dateRangeSearch : List Char → Bool
  | [] => false
  | c :: rest => dateRangeHere (c :: rest) || dateRangeSearch rest

/-- Character class of the role-title regex. -/
def isRoleChar (c : Char) : Bool :=
  isAsciiAlpha c || c = ' ' || c = '.' || c = ',' || c = Char.ofNat 39 || c = '&' ||
    c = '/' || c = '(' || c = ')' || c = '-'

/-- Tail of the role-title regex after the comma: optional whitespace,
an upper-case letter, then one or more class characters to the end. -/
def roleTailScan : List Char → Bool
  | [] => false
  | c :: rest =>
    (isAsciiUpper c && decide (rest ≠ []) && rest.all isRoleChar) ||
      (isJsWs c && roleTailScan rest)

/-- Body of the role-title regex: one or more class characters, a
comma, then the tail; the flag tracks whether a body character has
been consumed. -/
def roleScan : Bool → List Char → Bool
  | _, [] => false
  | seen, c :: rest =>
    (decide (c = ',') && seen && roleTailScan rest) || (isRoleChar c && roleScan true rest)

/-- Role-title regex of src/lib/description-format.ts: capital, body,
comma, optional whitespace, capital, body, anchored both ends. -/
def roleTitleTest : List Char → Bool
  | [] => false
  | c :: rest => isAsciiUpper c && roleScan false rest

/-- isLikelyHeadingLine of src/lib/description-format.ts. -/
def isLikelyHeadingLine (line : List Char) : Bool :=
  if line = [] then false
  else if isBulletLineCv line then false
  else if roleTitleTest line || dateRangeSearch line then true
  else if endsPunct line then false
  else if line.length > 72 then false
  else line.any isAsciiAlpha

/-- One emphasis token of the markdown dialect: a star run of the
given count, a nonempty star-free body, and the same star run. -/
def starToken (stars : Nat) (l : List Char) : Option (List Char × List Char) :=
  let op := List.replicate stars '*'
  if op.isPrefixOf l then
    let body := (l.drop stars).takeWhile (· ≠ '*')
    if body ≠ [] ∧ op.isPrefixOf ((l.drop stars).drop body.length) then
      some (body, (l.drop stars).drop (body.length + stars))
    else none
  else none

/-- One pass of stripMarkdownInlineMarkers for a star count. -/
def stripStarsPassF (stars : Nat) : Nat → List Char → List Char
  | 0, l => l
  | _ + 1, [] => []
  | fuel + 1, c :: rest =>
    match starToken stars (c :: rest) with
    | some (inner, after) => inner ++ stripStarsPassF stars fuel after
    | none => c :: stripStarsPassF stars fuel rest

def stripStarsPass (stars : Nat) (l : List Char) : List Char :=
  stripStarsPassF stars (l.length + 1) l

/-- stripMarkdownInlineMarkers of src/lib/description-format.ts: the
triple-star pass, then the double-star pass, then the single-star
pass. -/
def stripMarkdownInlineMarkers (l : List Char) : List Char :=
  stripStarsPass 1 (stripStarsPass 2 (stripStarsPass 3 l))

def plainRun (t : List Char) : InlineRun := ⟨⟨t⟩, false, false, false⟩

/-- One token of the inline markdown tokenizer, in alternation order:
triple star (bold italic), double star (bold), single star (italic). -/
def mdToken (l : List Char) : Option (InlineRun × List Char) :=
  match starToken 3 l with
  | some (body, after) => some (⟨⟨body⟩, true, true, false⟩, after)
  | none =>
    match starToken 2 l with
    | some (body, after) => some (⟨⟨body⟩, true, false, false⟩, after)
    | none =>
      match starToken 1 l with
      | some (body, after) => some (⟨⟨body⟩, false, true, false⟩, after)
      | none => none

/-- Scanner of parseInlineMarkdownRuns: text between tokens becomes a
plain run, tokens become styled runs, all through pushRun. -/
def mdScanF : Nat → List InlineRun → List Char → List Char → List InlineRun
  | 0, runs, pending, rest => pushRun runs (plainRun (pending ++ rest))
  | _ + 1, runs, pending, [] => pushRun runs (plainRun pending)
  | fuel + 1, runs, pending, c :: rest =>
    match mdToken (c :: rest) with
    | some (run, after) =>
      mdScanF fuel (pushRun (pushRun runs (plainRun pending)) run) [] after
    | none => mdScanF fuel runs (pending ++ [c]) rest

/-- parseInlineMarkdownRuns of src/lib/description-format.ts. -/
def parseInlineMarkdownRuns (text : List Char) : List InlineRun :=
  if text = [] then []
  else (mdScanF (text.length + 1) [] [] text).filter (fun r => r.text.data ≠ [])

/-- One line of parseLegacyMarkdownBlocks, with the following line for
the bullet-heading lookahead. -/
def legacyLineBlock (line : List Char) (next : Option (List Char)) : DescriptionBlock :=
  match bulletMatch line with
  | some rest =>
    if rest ≠ [] then
      let bulletText := jsTrim rest
      let stripped := stripMarkdownInlineMarkers bulletText
      let looksHeading :=
        (match next with
         | some nl => isBulletLineCv nl
         | none => false) &&
        isLikelyHeadingLine stripped && !endsPunct stripped
      if looksHeading then ⟨BlockKind.heading, parseInlineMarkdownRuns bulletText⟩
      else ⟨BlockKind.bullet, parseInlineMarkdownRuns bulletText⟩
    else ⟨BlockKind.para, parseInlineMarkdownRuns line⟩
  | none => ⟨BlockKind.para, parseInlineMarkdownRuns line⟩

def legacyLinesToBlocks : List (List Char) → List DescriptionBlock
  | [] => []
  | l :: rest => legacyLineBlock l rest.head? :: legacyLinesToBlocks rest

def isListKind (b : DescriptionBlock) : Bool :=
  b.kind = BlockKind.bullet || b.kind = BlockKind.numbered

/-- Transformation of one block by applyHeadingHeuristics, given the
untransformed following block. -/
def hhTransform (b : DescriptionBlock) (next : Option DescriptionBlock) : DescriptionBlock :=
  let text := blockTextL b
  match next with
  | some n =>
    if isListKind b then
      if isListKind n && isLikelyHeadingLine text && !endsPunct text then
        ⟨BlockKind.heading, b.runs⟩
      else b
    else if b.kind = BlockKind.para then
      if isListKind n then ⟨BlockKind.heading, b.runs⟩
      else if isLikelyHeadingLine text then ⟨BlockKind.heading, b.runs⟩
      else b
    else b
  | none =>
    if b.kind = BlockKind.para ∧ isLikelyHeadingLine text = true then
      ⟨BlockKind.heading, b.runs⟩
    else b

/-- applyHeadingHeuristics of src/lib/description-format.ts. -/
def applyHeadingHeuristics : List DescriptionBlock → List DescriptionBlock
  | [] => []
  | b :: rest => hhTransform b rest.head? :: applyHeadingHeuristics rest

/-- parseLegacyMarkdownBlocks of src/lib/description-format.ts. -/
def parseLegacyMarkdownBlocks (value : List Char) : List DescriptionBlock :=
  let lines := ((splitNl (replCR value)).map jsTrim).filter (· ≠ [])
  (applyHeadingHeuristics (legacyLinesToBlocks lines)).filter (fun b => runsHaveText b.runs)

/-! ## Inline sanitized-markup run tokenizer -/

def isWordChar (c : Char) : Bool := isAsciiAlpha c || isAsciiDigit c || c = '_'

/-- Word boundary after a tag name: the next character is not a word
character (or the string ends). -/
def boundaryOk (r : List Char) : Bool :=
  match r with
  | c :: _ => !isWordChar c
  | [] => true

/-- First of the given lower-case names that matches at the front,
case-insensitively and followed by a word boundary; returns its
length. -/
def tryNameCi : List (List Char) → List Char → Option Nat
  | [], _ => none
  | n :: ns, r =>
    if lowerStr (r.take n.length) = n ∧ boundaryOk (r.drop n.length) then some n.length
    else tryNameCi ns r

def fmtNames : List (List Char) :=
  ["strong".data, "em".data, "u".data, "b".data, "i".data]

/-- Line-break arm of the inline token regex: open angle, the letters
b r (any case), optional whitespace, an optional slash, close angle. -/
def tryBrToken (l : List Char) : Option (List Char × List Char) :=
  match l with
  | '<' :: c1 :: c2 :: rest =>
    if (c1 = 'b' ∨ c1 = 'B') ∧ (c2 = 'r' ∨ c2 = 'R') then
      let ws := rest.takeWhile isJsWs
      match rest.drop ws.length with
      | '/' :: '>' :: after => some (lowerStr (l.take (3 + ws.length + 2)), after)
      | '>' :: after => some (lowerStr (l.take (3 + ws.length + 1)), after)
      | _ => none
    else none
  | _ => none

/-- One token of parseInlineHtmlRuns: a formatting tag (open or close,
attributes skipped) or a line break; returns the lower-cased token
text and the rest. -/
def htmlToken (l : List Char) : Option (List Char × List Char) :=
  match l with
  | '<' :: rest =>
    let isClose := rest.head? = some '/'
    let r1 := if isClose then rest.drop 1 else rest
    (match tryNameCi fmtNames r1 with
     | some nlen =>
       let r2 := r1.drop nlen
       let junk := r2.takeWhile (· ≠ '>')
       (match r2.drop junk.length with
        | '>' :: after =>
          some (lowerStr (l.take (1 + (if isClose then 1 else 0) + nlen + junk.length + 1)), after)
        | _ => tryBrToken l)
     | none => tryBrToken l)
  | _ => none

structure FmtState where
  bold : Bool
  italic : Bool
  underline : Bool
deriving DecidableEq, Repr

/-- Effect of one lower-cased token on the formatting state, following
the substring tests of the source: a br token emits a newline run; a
token containing the word strong or the characters open-angle b
toggles bold; em or open-angle i toggles italic; u toggles underline. -/
def applyHtmlToken (st : FmtState) (tl : List Char) (runs : List InlineRun) :
    FmtState × List InlineRun :=
  let isClosing := ['<', '/'].isPrefixOf tl
  if ['<', 'b', 'r'].isPrefixOf tl then
    (st, pushRun runs ⟨⟨['\n']⟩, st.bold, st.italic, st.underline⟩)
  else if csub "strong".data tl || csub ['<', 'b'] tl then
    ({ st with bold := !isClosing }, runs)
  else if csub "em".data tl || csub ['<', 'i'] tl then
    ({ st with italic := !isClosing }, runs)
  else if csub ['u'] tl then
    ({ st with underline := !isClosing }, runs)
  else (st, runs)

/-- A chunk between tokens: whitespace runs collapsed, entities
decoded, carrying the current formatting state. -/
def htmlChunkRun (st : FmtState) (chunk : List Char) : InlineRun :=
  ⟨⟨decodeHtmlEntities (collapseWs chunk)⟩, st.bold, st.italic, st.underline⟩

def htmlScanF : Nat → FmtState → List InlineRun → List Char → List Char → List InlineRun
  | 0, st, runs, pending, rest => pushRun runs (htmlChunkRun st (pending ++ rest))
  | _ + 1, st, runs, pending, [] => pushRun runs (htmlChunkRun st pending)
  | fuel + 1, st, runs, pending, c :: rest =>
    match htmlToken (c :: rest) with
    | some (tl, after) =>
      let runs1 := pushRun runs (htmlChunkRun st pending)
      let sr := applyHtmlToken st tl runs1
      htmlScanF fuel sr.1 sr.2 [] after
    | none => htmlScanF fuel st runs (pending ++ [c]) rest

/-- parseInlineHtmlRuns of src/lib/description-format.ts. -/
def parseInlineHtmlRuns (html : List Char) : List InlineRun :=
  (htmlScanF (html.length + 1) ⟨false, false, false⟩ [] [] html).filter
    (fun r => r.text.data ≠ [])

/-! ## Sanitizer model

sanitizeDescriptionHtml of src/lib/description-format.ts calls the
external sanitize-html library with allowedTags p br strong em u ul ol
li, no attributes, discard mode for everything else, tag transforms b
to strong, i to em, div to p, and lower-cased tag names, then trims.
The library itself is not part of the repository, so it is modelled
here from that configuration and its documented behaviour: tags are
tokenized (attributes dropped, quote-aware), entities in text are
decoded and re-escaped, allowed tags are re-emitted in canonical form
(br as a self-closing tag), disallowed tags are discarded keeping
their content, except that the non-text tags script, style, textarea
and option discard their content too; comments and markup declarations
are dropped. The stack rebalancing a full HTML parser performs on
malformed input is not modelled: unmatched tags pass through unchanged
(the stuck-state reading of the specification), which coincides with
the library on every well-formed input produced by this repository. -/

def ALLOWED_TAGS : List (List Char) :=
  ["p".data, "br".data, "strong".data, "em".data, "u".data, "ul".data, "ol".data, "li".data]

def transformTag (n : List Char) : List Char :=
  if n = "b".data then "strong".data
  else if n = "i".data then "em".data
  else if n = "div".data then "p".data
  else n

def nonTextTags : List (List Char) :=
  ["script".data, "style".data, "textarea".data, "option".data]

inductive HTok
  | text (s : List Char)
  | openTag (name : List Char)
  | closeTag (name : List Char)
deriving DecidableEq, Repr

/-- Valid scalar gate for a numeric entity. -/
def validScalar (n : Nat) : Option Char :=
  if n < 55296 ∨ (57344 ≤ n ∧ n < 1114112) then some (Char.ofNat n) else none

/-- Entity after an ampersand: the named entities used by this
development plus decimal numeric entities. -/
def parseEntity (l : List Char) : Option (Char × List Char) :=
  if "amp;".data.isPrefixOf l then some ('&', l.drop 4)
  else if "lt;".data.isPrefixOf l then some ('<', l.drop 3)
  else if "gt;".data.isPrefixOf l then some ('>', l.drop 3)
  else if "quot;".data.isPrefixOf l then some (Char.ofNat 34, l.drop 5)
  else if "apos;".data.isPrefixOf l then some (Char.ofNat 39, l.drop 5)
  else if "nbsp;".data.isPrefixOf l then some (' ', l.drop 5)
  else
    match l with
    | '#' :: rest =>
      (match rest.drop (rest.takeWhile isAsciiDigit).length with
       | ';' :: tail =>
         if rest.takeWhile isAsciiDigit ≠ [] then
           match validScalar (digitsToNat (rest.takeWhile isAsciiDigit)) with
           | some ch => some (ch, tail)
           | none => none
         else none
       | _ => none)
    | _ => none

def isTagNameChar (c : Char) : Bool := isAsciiAlpha c || isAsciiDigit c

def spanTagName (l : List Char) : List Char × List Char :=
  (lowerStr (l.takeWhile isTagNameChar), l.dropWhile isTagNameChar)

/-- Skip to the closing angle of a tag, quote-aware; none when the tag
never closes. -/
def skipToGtQ : Option Char → List Char → Option (List Char)
  | _, [] => none
  | none, c :: rest =>
    if c = '>' then some rest
    else if c = Char.ofNat 34 ∨ c = Char.ofNat 39 then skipToGtQ (some c) rest
    else skipToGtQ none rest
  | some q, c :: rest => if c = q then skipToGtQ none rest else skipToGtQ (some q) rest

def skipToGt (l : List Char) : Option (List Char) := skipToGtQ none l

/-- Rest of the input after the first occurrence of the pattern. -/
def dropThroughSub (pat : List Char) : List Char → Option (List Char)
  | [] => none
  | l@(_ :: rest) =>
    if pat.isPrefixOf l then some (l.drop pat.length) else dropThroughSub pat rest

/-- Tokenizer of the sanitizer model. -/
def tokF : Nat → List Char → List HTok
  | 0, _ => []
  | _ + 1, [] => []
  | fuel + 1, '&' :: rest =>
    (match parseEntity rest with
     | some (ch, r2) => HTok.text [ch] :: tokF fuel r2
     | none => HTok.text ['&'] :: tokF fuel rest)
  | fuel + 1, '<' :: rest =>
    (match rest with
     | [] => [HTok.text ['<']]
     | c :: cs =>
       if isAsciiAlpha c then
         match skipToGt (spanTagName rest).2 with
         | some r2 => HTok.openTag (spanTagName rest).1 :: tokF fuel r2
         | none => []
       else if c = '/' then
         match cs with
         | c2 :: _ =>
           if isAsciiAlpha c2 then
             match skipToGt (spanTagName cs).2 with
             | some r2 => HTok.closeTag (spanTagName cs).1 :: tokF fuel r2
             | none => []
           else
             match skipToGt cs with
             | some r2 => tokF fuel r2
             | none => []
         | [] => []
       else if c = '!' then
         if ['-', '-'].isPrefixOf cs then
           match dropThroughSub ['-', '-', '>'] (cs.drop 2) with
           | some r2 => tokF fuel r2
           | none => []
         else
           match skipToGt cs with
           | some r2 => tokF fuel r2
           | none => []
       else if c = '?' then
         match skipToGt cs with
         | some r2 => tokF fuel r2
         | none => []
       else HTok.text ['<'] :: tokF fuel rest)
  | fuel + 1, c :: rest => HTok.text [c] :: tokF fuel rest

def tokenizeHtml (l : List Char) : List HTok := tokF (l.length + 1) l

inductive SanState
  | norm
  | skip (name : List Char) (depth : Nat)
deriving DecidableEq, Repr

/-- Escape of text content: ampersand, less-than and greater-than. -/
def encChar (c : Char) : List Char :=
  if c = '&' then "&amp;".data
  else if c = '<' then "&lt;".data
  else if c = '>' then "&gt;".data
  else [c]

def escapeTextSan (l : List Char) : List Char := l.flatMap encChar

/-- Emission pass of the sanitizer model. -/
def emitToks : List HTok → SanState → List Char
  | [], _ => []
  | HTok.text s :: ts, SanState.norm => escapeTextSan s ++ emitToks ts SanState.norm
  | HTok.text _ :: ts, SanState.skip n d => emitToks ts (SanState.skip n d)
  | HTok.openTag n :: ts, SanState.norm =>
    if transformTag n ∈ ALLOWED_TAGS then
      if transformTag n = "br".data then "<br />".data ++ emitToks ts SanState.norm
      else ('<' :: transformTag n ++ ['>']) ++ emitToks ts SanState.norm
    else if n ∈ nonTextTags then emitToks ts (SanState.skip n 1)
    else emitToks ts SanState.norm
  | HTok.openTag n :: ts, SanState.skip m d =>
    if n = m then emitToks ts (SanState.skip m (d + 1)) else emitToks ts (SanState.skip m d)
  | HTok.closeTag n :: ts, SanState.norm =>
    if transformTag n ∈ ALLOWED_TAGS ∧ transformTag n ≠ "br".data then
      ('<' :: '/' :: transformTag n ++ ['>']) ++ emitToks ts SanState.norm
    else emitToks ts SanState.norm
  | HTok.closeTag n :: ts, SanState.skip m d =>
    if n = m then
      (if d = 1 then emitToks ts SanState.norm else emitToks ts (SanState.skip m (d - 1)))
    else emitToks ts (SanState.skip m d)

def sanitizeChars (l : List Char) : List Char :=
  jsTrim (emitToks (tokenizeHtml l) SanState.norm)

/-- sanitizeDescriptionHtml of src/lib/description-format.ts (the
configured external sanitizer followed by trim). -/
def sanitizeDescriptionHtml (value : String) : String := ⟨sanitizeChars value.data⟩

/-- isHtmlDescription of src/lib/description-format.ts: an open angle,
an optional slash, a letter, then a later close angle, anywhere. -/
def htmlTagHere (l : List Char) : Bool :=
  match l with
  | '<' :: rest =>
    (match (if rest.head? = some '/' then rest.drop 1 else rest) with
     | c :: cs => isAsciiAlpha c && cs.contains '>'
     | [] => false)
  | _ => false

def htmlSearch : List Char → Bool
  | [] => false
  | c :: rest => htmlTagHere (c :: rest) || htmlSearch rest

def isHtmlDescription (value : String) : Bool := htmlSearch value.data

/-! ## Top-level sanitized-markup block parser -/

def topNames : List (List Char) := ["p".data, "ul".data, "ol".data]

/-- Open tag of the top-level element regex at the front: p, ul or ol
case-insensitively with a boundary, attributes skipped to the closing
angle; returns the captured name in its original case and the rest. -/
def tryTopOpen (l : List Char) : Option (List Char × List Char) :=
  match l with
  | '<' :: rest =>
    (match tryNameCi topNames rest with
     | some nlen =>
       let r2 := rest.drop nlen
       let junk := r2.takeWhile (· ≠ '>')
       (match r2.drop junk.length with
        | '>' :: after => some (rest.take nlen, after)
        | _ => none)
     | none => none)
  | _ => none

/-- Split at the first case-insensitive occurrence of the closing tag
of the given lower-cased name: inner content and rest. -/
def findCloseSplit (tagLower : List Char) : List Char → Option (List Char × List Char)
  | [] => none
  | l@(c :: rest) =>
    if lowerStr (l.take (tagLower.length + 3)) = ('<' :: '/' :: tagLower ++ ['>']) then
      some ([], l.drop (tagLower.length + 3))
    else (findCloseSplit tagLower rest).map (fun p => (c :: p.1, p.2))

/-- Leftmost top-level element match: text before it, captured tag,
inner content, rest. -/
def findTopMatch : List Char → Option (List Char × (List Char × List Char × List Char))
  | [] => none
  | l@(c :: rest) =>
    match tryTopOpen l with
    | some (tag, afterOpen) =>
      (match findCloseSplit (lowerStr tag) afterOpen with
       | some (inner, after) => some ([], (tag, inner, after))
       | none => (findTopMatch rest).map (fun q => (c :: q.1, q.2)))
    | none => (findTopMatch rest).map (fun q => (c :: q.1, q.2))

/-- Open list-item tag at the front. -/
def tryLiOpen (l : List Char) : Option (List Char) :=
  match l with
  | '<' :: rest =>
    if lowerStr (rest.take 2) = "li".data ∧ boundaryOk (rest.drop 2) then
      (match (rest.drop 2).drop ((rest.drop 2).takeWhile (· ≠ '>')).length with
       | '>' :: after => some after
       | _ => none)
    else none
  | _ => none

/-- First list-item element of the inner content. -/
def findLiMatch : List Char → Option (List Char × List Char)
  | [] => none
  | l@(_ :: rest) =>
    match tryLiOpen l with
    | some afterOpen =>
      (match findCloseSplit "li".data afterOpen with
       | some (inner, after) => some (inner, after)
       | none => findLiMatch rest)
    | none => findLiMatch rest

def liItemsF : Nat → List Char → List (List Char)
  | 0, _ => []
  | fuel + 1, inner =>
    match findLiMatch inner with
    | some (item, after) => item :: liItemsF fuel after
    | none => []

def liItems (inner : List Char) : List (List Char) := liItemsF (inner.length + 1) inner

/-- Open paragraph tag at the front (for the item normalizer). -/
def tryPOpen (l : List Char) : Option (List Char) :=
  match l with
  | '<' :: p :: rest =>
    if (p = 'p' ∨ p = 'P') ∧ boundaryOk rest then
      (match rest.drop (rest.takeWhile (· ≠ '>')).length with
       | '>' :: after => some after
       | _ => none)
    else none
  | _ => none

def stripPWrapF : Nat → List Char → List Char
  | 0, l => l
  | _ + 1, [] => []
  | fuel + 1, c :: rest =>
    match tryPOpen (c :: rest) with
    | some after => stripPWrapF fuel after
    | none => c :: stripPWrapF fuel rest

def stripPWrap (l : List Char) : List Char := stripPWrapF (l.length + 1) l

/-- List-item normalization of parseTopLevelHtmlBlocks: trim, drop
opening paragraph tags, drop closing paragraph tags, trim. -/
def normalizeLiItem (item : List Char) : List Char :=
  jsTrim (replaceAllCi "</p>".data [] (stripPWrap (jsTrim item)))

/-- Global replace of every tag-shaped span by one space. -/
def stripAllTagsF : Nat → List Char → List Char
  | 0, l => l
  | _ + 1, [] => []
  | fuel + 1, c :: rest =>
    if c = '<' then
      match rest with
      | r1 :: _ =>
        if r1 ≠ '>' then
          match rest.drop (rest.takeWhile (· ≠ '>')).length with
          | '>' :: after => ' ' :: stripAllTagsF fuel after
          | _ => c :: stripAllTagsF fuel rest
        else c :: stripAllTagsF fuel rest
      | [] => c :: stripAllTagsF fuel rest
    else c :: stripAllTagsF fuel rest

def stripAllTags (l : List Char) : List Char := stripAllTagsF (l.length + 1) l

/-- pushLooseText of parseTopLevelHtmlBlocks: strip tags to spaces,
decode entities, split on line feeds, trim, keep nonempty lines as
single-run paragraph blocks. -/
def looseBlocks (raw : List Char) : List DescriptionBlock :=
  (((splitNl (decodeHtmlEntities (stripAllTags raw))).map jsTrim).filter (· ≠ [])).map
    (fun line => ⟨BlockKind.para, [⟨⟨line⟩, false, false, false⟩]⟩)

/-- Split on runs of line feeds (the fallback split). -/
def splitNlPlusF : Nat → List Char → List (List Char)
  | 0, l => [l]
  | _ + 1, [] => [[]]
  | fuel + 1, c :: rest =>
    if c = '\n' then [] :: splitNlPlusF fuel (rest.dropWhile (· = '\n'))
    else
      match splitNlPlusF fuel rest with
      | [] => [[c]]
      | g :: gs => (c :: g) :: gs

def splitNlPlus (l : List Char) : List (List Char) := splitNlPlusF (l.length + 1) l

/-- Fallback of parseTopLevelHtmlBlocks when no block was produced. -/
def fallbackBlocks (html : List Char) : List DescriptionBlock :=
  (((splitNlPlus (decodeHtmlEntities (stripAllTags html))).map jsTrim).filter (· ≠ [])).map
    (fun line => ⟨BlockKind.para, [⟨⟨line⟩, false, false, false⟩]⟩)

/-- Blocks of one matched top-level element: a paragraph parses its
inline runs; a list parses each list item (the original-case captured
tag decides, as in the source, where only the exact lower-case p takes
the paragraph path and the exact ol gives numbered items). -/
def tagBlocks (tag : List Char) (inner : List Char) : List DescriptionBlock :=
  if tag = "p".data then
    if runsHaveText (parseInlineHtmlRuns inner) then
      [⟨BlockKind.para, parseInlineHtmlRuns inner⟩]
    else []
  else
    (liItems inner).filterMap (fun item =>
      if runsHaveText (parseInlineHtmlRuns (normalizeLiItem item)) then
        some ⟨if tag = "ol".data then BlockKind.numbered else BlockKind.bullet,
          parseInlineHtmlRuns (normalizeLiItem item)⟩
      else none)

def topLoopF : Nat → List Char → List DescriptionBlock
  | 0, _ => []
  | fuel + 1, html =>
    match findTopMatch html with
    | none => looseBlocks html
    | some (before, (tag, inner, after)) =>
      looseBlocks before ++ tagBlocks tag inner ++ topLoopF fuel after

/-- parseTopLevelHtmlBlocks of src/lib/description-format.ts. -/
def parseTopLevelHtmlBlocks (html : List Char) : List DescriptionBlock :=
  (applyHeadingHeuristics
    (if topLoopF (html.length + 1) html = [] then fallbackBlocks html
     else topLoopF (html.length + 1) html)).filter (fun b => runsHaveText b.runs)

/-! ## Rendering and the public description operations -/

def replNlBr (l : List Char) : List Char :=
  l.flatMap (fun c => if c = '\n' then "<br>".data else [c])

/-- blockRunsToHtml of src/lib/description-format.ts. -/
def blockRunsToHtml (runs : List InlineRun) : List Char :=
  if runs = [] then "<br>".data
  else
    (runs.map (fun run =>
      let t0 := replNlBr (escapeHtml run.text.data)
      let t1 := if run.underline then "<u>".data ++ t0 ++ "</u>".data else t0
      let t2 := if run.italic then "<em>".data ++ t1 ++ "</em>".data else t1
      if run.bold then "<strong>".data ++ t2 ++ "</strong>".data else t2)).flatten

def closeListTag : Option (List Char) → List Char
  | some t => '<' :: '/' :: t ++ ['>']
  | none => []

/-- blocksToHtml of src/lib/description-format.ts: consecutive bullet
blocks share one unordered list, consecutive numbered blocks one
ordered list. -/
def blocksToHtmlGo : Option (List Char) → List DescriptionBlock → List Char
  | openList, [] => closeListTag openList
  | openList, b :: rest =>
    if !runsHaveText b.runs then blocksToHtmlGo openList rest
    else if isListKind b then
      (if openList = some (if b.kind = BlockKind.numbered then "ol".data else "ul".data) then
        "<li>".data ++ blockRunsToHtml b.runs ++ "</li>".data ++ blocksToHtmlGo openList rest
      else
        closeListTag openList ++
          ('<' :: (if b.kind = BlockKind.numbered then "ol".data else "ul".data) ++ ['>']) ++
          "<li>".data ++ blockRunsToHtml b.runs ++ "</li>".data ++
          blocksToHtmlGo (some (if b.kind = BlockKind.numbered then "ol".data else "ul".data)) rest)
    else
      closeListTag openList ++ "<p>".data ++ blockRunsToHtml b.runs ++ "</p>".data ++
        blocksToHtmlGo none rest

def blocksToHtml (blocks : List DescriptionBlock) : List Char := blocksToHtmlGo none blocks

/-- emptyHtml of src/lib/description-format.ts. -/
def emptyHtml (value : List Char) : Bool :=
  lowerStr (value.filter (fun c => !isJsWs c)) = [] ||
  lowerStr (value.filter (fun c => !isJsWs c)) = "<p></p>".data ||
  lowerStr (value.filter (fun c => !isJsWs c)) = "<p><br></p>".data

/-- normalizeStoredDescriptionHtml of src/lib/description-format.ts. -/
def normalizeStoredDescriptionHtml (value : String) : String :=
  if sanitizeChars value.data = [] ∨ emptyHtml (sanitizeChars value.data) = true then ""
  else ⟨sanitizeChars value.data⟩

/-- parseDescriptionBlocks of src/lib/description-format.ts. -/
def parseDescriptionBlocks (value : String) : List DescriptionBlock :=
  if jsTrim value.data = [] then []
  else if htmlSearch (jsTrim value.data) = true then
    (if sanitizeChars (jsTrim value.data) = [] then []
     else parseTopLevelHtmlBlocks (sanitizeChars (jsTrim value.data)))
  else parseLegacyMarkdownBlocks (jsTrim value.data)

/-- descriptionToPlainText of src/lib/description-format.ts. -/
def descriptionToPlainText (value : String) : String :=
  ⟨jsTrim (joinSep ['\n'] ((((parseDescriptionBlocks value).map (fun b =>
    if blockTextL b = [] then []
    else if isListKind b then '-' :: ' ' :: blockTextL b
    else blockTextL b)).filter (· ≠ []))))⟩

/-- legacyMarkdownToHtml of src/lib/description-format.ts. -/
def legacyMarkdownToHtml (value : String) : String :=
  if parseLegacyMarkdownBlocks value.data = [] then ""
  else normalizeStoredDescriptionHtml ⟨blocksToHtml (parseLegacyMarkdownBlocks value.data)⟩

/-- descriptionToEditorHtml of src/lib/description-format.ts. -/
def descriptionToEditorHtml (value : String) : String :=
  if jsTrim value.data = [] then "<p></p>"
  else if htmlSearch (jsTrim value.data) = true then
    (if sanitizeChars (jsTrim value.data) = [] then "<p></p>"
     else ⟨sanitizeChars (jsTrim value.data)⟩)
  else
    (if legacyMarkdownToHtml ⟨jsTrim value.data⟩ = "" then "<p></p>"
     else legacyMarkdownToHtml ⟨jsTrim value.data⟩)

/-! ## Claim C1: idempotence of the stored-HTML normalizer -/

theorem tokF_generic (f : Nat) (c : Char) (l : List Char) (h1 : c ≠ '&') (h2 : c ≠ '<') :
    tokF (f + 1) (c :: l) = HTok.text [c] :: tokF f l := by
  rw [tokF]
  · exact fun h => h1 h
  · exact fun h => h2 h

theorem tokF_amp (f : Nat) (l : List Char) :
    tokF (f + 1) ('&' :: ("amp;".data ++ l)) = HTok.text ['&'] :: tokF f l := by
  rw [show ("amp;".data ++ l) = 'a' :: 'm' :: 'p' :: ';' :: l from rfl]
  rw [tokF]
  have : parseEntity ('a' :: 'm' :: 'p' :: ';' :: l) = some ('&', l) := by
    unfold parseEntity
    rw [if_pos]
    · simp
    · simp [List.isPrefixOf]
  rw [this]

theorem tokF_lt (f : Nat) (l : List Char) :
    tokF (f + 1) ('&' :: ("lt;".data ++ l)) = HTok.text ['<'] :: tokF f l := by
  rw [show ("lt;".data ++ l) = 'l' :: 't' :: ';' :: l from rfl]
  rw [tokF]
  have : parseEntity ('l' :: 't' :: ';' :: l) = some ('<', l) := by
    unfold parseEntity
    rw [if_neg (by simp [List.isPrefixOf]), if_pos (by simp [List.isPrefixOf])]
    simp
  rw [this]

theorem tokF_gt (f : Nat) (l : List Char) :
    tokF (f + 1) ('&' :: ("gt;".data ++ l)) = HTok.text ['>'] :: tokF f l := by
  rw [show ("gt;".data ++ l) = 'g' :: 't' :: ';' :: l from rfl]
  rw [tokF]
  have : parseEntity ('g' :: 't' :: ';' :: l) = some ('>', l) := by
    unfold parseEntity
    rw [if_neg (by simp [List.isPrefixOf]), if_neg (by simp [List.isPrefixOf]),
      if_pos (by simp [List.isPrefixOf])]
    simp
  rw [this]

theorem takeWhile_append_stop (p : Char → Bool) (a : List Char) (b0 : Char) (b : List Char)
    (ha : ∀ x ∈ a, p x = true) (hb : p b0 = false) :
    (a ++ b0 :: b).takeWhile p = a := by
  induction a with
  | nil => simp [List.takeWhile_cons, hb]
  | cons x xs ih =>
    rw [List.cons_append, List.takeWhile_cons]
    simp only [ha x (by simp)]
    rw [ih (fun y hy => ha y (by simp [hy]))]
    simp

theorem dropWhile_append_stop (p : Char → Bool) (a : List Char) (b0 : Char) (b : List Char)
    (ha : ∀ x ∈ a, p x = true) (hb : p b0 = false) :
    (a ++ b0 :: b).dropWhile p = b0 :: b := by
  induction a with
  | nil => simp [List.dropWhile_cons, hb]
  | cons x xs ih =>
    rw [List.cons_append, List.dropWhile_cons]
    simp only [ha x (by simp), if_true]
    exact ih (fun y hy => ha y (by simp [hy]))

theorem spanTagName_concrete (t : List Char) (l : List Char)
    (halpha : ∀ c ∈ t, isAsciiAlpha c = true) (hlower : lowerStr t = t) :
    spanTagName (t ++ '>' :: l) = (t, '>' :: l) := by
  unfold spanTagName
  have hn : ∀ c ∈ t, isTagNameChar c = true := fun c hc => by
    simp [isTagNameChar, halpha c hc]
  rw [takeWhile_append_stop _ _ _ _ hn (by decide),
    dropWhile_append_stop _ _ _ _ hn (by decide), hlower]

theorem skipToGt_gt (l : List Char) : skipToGt ('>' :: l) = some l := by
  simp [skipToGt, skipToGtQ]

theorem tokF_open (f : Nat) (t : List Char) (l : List Char)
    (ht : t ≠ []) (halpha : ∀ c ∈ t, isAsciiAlpha c = true) (hlower : lowerStr t = t) :
    tokF (f + 1) ('<' :: (t ++ '>' :: l)) = HTok.openTag t :: tokF f l := by
  have hspan := spanTagName_concrete t l halpha hlower
  rcases t with _ | ⟨t0, ts⟩
  · exact absurd rfl ht
  have h0 : isAsciiAlpha t0 = true := halpha t0 (by simp)
  rcases ts with _ | ⟨t1, ts'⟩
  · rw [List.cons_append, List.nil_append]
    rw [tokF.eq_5, if_pos h0]
    have : spanTagName (t0 :: '>' :: l) = ([t0], '>' :: l) := by
      simpa using hspan
    rw [this, skipToGt_gt]
  · rw [List.cons_append, List.cons_append]
    rw [tokF.eq_5, if_pos h0]
    have : spanTagName (t0 :: t1 :: (ts' ++ '>' :: l)) = (t0 :: t1 :: ts', '>' :: l) := by
      simpa using hspan
    rw [this, skipToGt_gt]

theorem tokF_close (f : Nat) (t : List Char) (l : List Char)
    (ht : t ≠ []) (halpha : ∀ c ∈ t, isAsciiAlpha c = true) (hlower : lowerStr t = t) :
    tokF (f + 1) ('<' :: '/' :: (t ++ '>' :: l)) = HTok.closeTag t :: tokF f l := by
  have hspan := spanTagName_concrete t l halpha hlower
  rcases t with _ | ⟨t0, ts⟩
  · exact absurd rfl ht
  have h0 : isAsciiAlpha t0 = true := halpha t0 (by simp)
  rw [List.cons_append]
  rw [tokF.eq_5, if_neg (by decide), if_pos rfl, if_pos h0]
  rw [List.cons_append] at hspan
  rw [hspan, skipToGt_gt]

theorem tokF_br (f : Nat) (l : List Char) :
    tokF (f + 1) ("<br />".data ++ l) = HTok.openTag "br".data :: tokF f l := by
  rw [show "<br />".data ++ l = '<' :: 'b' :: 'r' :: (' ' :: '/' :: '>' :: l) from rfl]
  rw [tokF.eq_5, if_pos (by decide)]
  have hspan : spanTagName ('b' :: 'r' :: ' ' :: '/' :: '>' :: l) =
      ("br".data, ' ' :: '/' :: '>' :: l) := by
    unfold spanTagName
    rw [show ('b' :: 'r' :: ' ' :: '/' :: '>' :: l) = "br".data ++ ' ' :: '/' :: '>' :: l from rfl]
    rw [takeWhile_append_stop _ _ _ _ (by decide) (by decide),
      dropWhile_append_stop _ _ _ _ (by decide) (by decide)]
    rfl
  rw [hspan]
  have hskip : skipToGt (' ' :: '/' :: '>' :: l) = some l := by
    simp [skipToGt, skipToGtQ]
  rw [hskip]
inductive CanonPieces : List Char → Prop
  | nil : CanonPieces []
  | txt (c : Char) {l : List Char} : CanonPieces l → CanonPieces (encChar c ++ l)
  | brp {l : List Char} : CanonPieces l → CanonPieces ("<br />".data ++ l)
  | opn (t : List Char) {l : List Char} (hmem : t ∈ ALLOWED_TAGS) (hbr : t ≠ "br".data) :
      CanonPieces l → CanonPieces (('<' :: (t ++ ['>'])) ++ l)
  | cls (t : List Char) {l : List Char} (hmem : t ∈ ALLOWED_TAGS) (hbr : t ≠ "br".data) :
      CanonPieces l → CanonPieces (('<' :: '/' :: (t ++ ['>'])) ++ l)

theorem canon_escape (s : List Char) {l : List Char} (h : CanonPieces l) :
    CanonPieces (escapeTextSan s ++ l) := by
  induction s with
  | nil => simpa [escapeTextSan]
  | cons c cs ih =>
    have he : escapeTextSan (c :: cs) ++ l = encChar c ++ (escapeTextSan cs ++ l) := by
      simp [escapeTextSan, List.append_assoc]
    rw [he]
    exact CanonPieces.txt c ih

theorem transformTag_allowed {t : List Char} (h : t ∈ ALLOWED_TAGS) : transformTag t = t := by
  simp [ALLOWED_TAGS] at h
  rcases h with rfl | rfl | rfl | rfl | rfl | rfl | rfl | rfl <;> decide

theorem allowed_tag_facts {t : List Char} (h : t ∈ ALLOWED_TAGS) :
    t ≠ [] ∧ (∀ c ∈ t, isAsciiAlpha c = true) ∧ lowerStr t = t := by
  simp [ALLOWED_TAGS] at h
  rcases h with rfl | rfl | rfl | rfl | rfl | rfl | rfl | rfl <;>
    exact ⟨by decide, by decide, by decide⟩

theorem canon_emit : ∀ (ts : List HTok) (st : SanState), CanonPieces (emitToks ts st) := by
  intro ts
  induction ts with
  | nil => intro st; cases st <;> exact CanonPieces.nil
  | cons t ts ih =>
    intro st
    cases t with
    | text s =>
      cases st with
      | norm => exact canon_escape s (ih SanState.norm)
      | skip n d => exact ih _
    | openTag n =>
      cases st with
      | norm =>
        simp only [emitToks]
        split
        · rename_i hmem
          split
          · exact CanonPieces.brp (ih _)
          · rename_i hbr
            exact CanonPieces.opn _ hmem hbr (ih _)
        · split
          · exact ih _
          · exact ih _
      | skip m d =>
        simp only [emitToks]
        split <;> exact ih _
    | closeTag n =>
      cases st with
      | norm =>
        simp only [emitToks]
        split
        · rename_i hcond
          exact CanonPieces.cls _ hcond.1 hcond.2 (ih _)
        · exact ih _
      | skip m d =>
        simp only [emitToks]
        split
        · split <;> exact ih _
        · exact ih _

theorem canon_roundtrip {s : List Char} (h : CanonPieces s) :
    ∀ f, s.length < f → emitToks (tokF f s) SanState.norm = s := by
  induction h with
  | nil =>
    intro f hf
    rcases f with _ | f
    · exact absurd hf (by simp)
    · rfl
  | @txt c l h ih =>
    intro f hf
    rcases f with _ | f
    · exact absurd hf (by simp)
    have hlen : l.length < f := by
      have h1 : 1 ≤ (encChar c).length := by
        unfold encChar
        split_ifs <;> simp
      simp [List.length_append] at hf
      omega
    by_cases hamp : c = '&'
    · subst hamp
      rw [show encChar '&' ++ l = '&' :: ("amp;".data ++ l) from rfl]
      rw [tokF_amp f l]
      show escapeTextSan ['&'] ++ emitToks (tokF f l) SanState.norm = encChar '&' ++ l
      rw [ih f hlen]
      rfl
    by_cases hlt : c = '<'
    · subst hlt
      rw [show encChar '<' ++ l = '&' :: ("lt;".data ++ l) from rfl]
      rw [tokF_lt f l]
      show escapeTextSan ['<'] ++ emitToks (tokF f l) SanState.norm = encChar '<' ++ l
      rw [ih f hlen]
      rfl
    by_cases hgt : c = '>'
    · subst hgt
      rw [show encChar '>' ++ l = '&' :: ("gt;".data ++ l) from rfl]
      rw [tokF_gt f l]
      show escapeTextSan ['>'] ++ emitToks (tokF f l) SanState.norm = encChar '>' ++ l
      rw [ih f hlen]
      rfl
    · have he : encChar c = [c] := by
        unfold encChar
        rw [if_neg hamp, if_neg hlt, if_neg hgt]
      rw [he, List.singleton_append]
      rw [tokF_generic f c l hamp hlt]
      show escapeTextSan [c] ++ emitToks (tokF f l) SanState.norm = c :: l
      rw [ih f hlen]
      show encChar c ++ [] ++ l = c :: l
      rw [he]
      rfl
  | @brp l h ih =>
    intro f hf
    rcases f with _ | f
    · exact absurd hf (by simp)
    have hlen : l.length < f := by
      simp [List.length_append] at hf
      omega
    rw [tokF_br f l]
    show emitToks (HTok.openTag "br".data :: tokF f l) SanState.norm = "<br />".data ++ l
    simp only [emitToks]
    rw [if_pos (by decide), if_pos (by decide)]
    rw [ih f hlen]
  | @opn t l hmem hbr h ih =>
    intro f hf
    obtain ⟨hne, halpha, hlow⟩ := allowed_tag_facts hmem
    rcases f with _ | f
    · exact absurd hf (by simp)
    have hlen : l.length < f := by
      have ht1 : 1 ≤ t.length := by
        rcases t with _ | _
        · exact absurd rfl hne
        · simp
      simp [List.length_append] at hf
      omega
    have hshape : ('<' :: (t ++ ['>'])) ++ l = '<' :: (t ++ '>' :: l) := by
      simp
    rw [hshape, tokF_open f t l hne halpha hlow]
    simp only [emitToks]
    rw [transformTag_allowed hmem, if_pos hmem, if_neg hbr]
    rw [ih f hlen]
    simp
  | @cls t l hmem hbr h ih =>
    intro f hf
    obtain ⟨hne, halpha, hlow⟩ := allowed_tag_facts hmem
    rcases f with _ | f
    · exact absurd hf (by simp)
    have hlen : l.length < f := by
      simp [List.length_append] at hf
      omega
    have hshape : ('<' :: '/' :: (t ++ ['>'])) ++ l = '<' :: '/' :: (t ++ '>' :: l) := by
      simp
    rw [hshape, tokF_close f t l hne halpha hlow]
    simp only [emitToks]
    rw [transformTag_allowed hmem]
    rw [if_pos ⟨hmem, hbr⟩]
    rw [ih f hlen]
    simp

theorem canon_roundtrip_full {s : List Char} (h : CanonPieces s) :
    emitToks (tokenizeHtml s) SanState.norm = s :=
  canon_roundtrip h (s.length + 1) (Nat.lt_succ_self _)

theorem encChar_ws {c : Char} (hw : isJsWs c = true) : encChar c = [c] := by
  have h1 : c ≠ '&' := fun h => by subst h; exact absurd hw (by decide)
  have h2 : c ≠ '<' := fun h => by subst h; exact absurd hw (by decide)
  have h3 : c ≠ '>' := fun h => by subst h; exact absurd hw (by decide)
  unfold encChar
  rw [if_neg h1, if_neg h2, if_neg h3]

theorem encChar_head (c : Char) (hw : isJsWs c = false) :
    ∃ c0 r, encChar c = c0 :: r ∧ isJsWs c0 = false := by
  by_cases h1 : c = '&'
  · exact ⟨'&', "amp;".data, by rw [h1]; rfl, by decide⟩
  by_cases h2 : c = '<'
  · exact ⟨'&', "lt;".data, by rw [h2]; rfl, by decide⟩
  by_cases h3 : c = '>'
  · exact ⟨'&', "gt;".data, by rw [h3]; rfl, by decide⟩
  · refine ⟨c, [], ?_, hw⟩
    unfold encChar
    rw [if_neg h1, if_neg h2, if_neg h3]

theorem encChar_split (c : Char) (hw : isJsWs c = false) :
    ∃ a z, encChar c = a ++ [z] ∧ isJsWs z = false := by
  by_cases h1 : c = '&'
  · exact ⟨"&amp".data, ';', by rw [h1]; rfl, by decide⟩
  by_cases h2 : c = '<'
  · exact ⟨"&lt".data, ';', by rw [h2]; rfl, by decide⟩
  by_cases h3 : c = '>'
  · exact ⟨"&gt".data, ';', by rw [h3]; rfl, by decide⟩
  · refine ⟨[], c, ?_, hw⟩
    unfold encChar
    rw [if_neg h1, if_neg h2, if_neg h3]
    rfl

theorem canon_dropWhile {s : List Char} (h : CanonPieces s) :
    CanonPieces (s.dropWhile isJsWs) := by
  induction h with
  | nil => exact CanonPieces.nil
  | @txt c l h ih =>
    by_cases hw : isJsWs c
    · rw [encChar_ws hw, List.singleton_append, List.dropWhile_cons_of_pos hw]
      exact ih
    · obtain ⟨c0, r, he, hc0⟩ := encChar_head c (by simpa using hw)
      rw [he, List.cons_append, List.dropWhile_cons_of_neg (by simp [hc0])]
      rw [← List.cons_append, ← he]
      exact CanonPieces.txt c h
  | @brp l h ih =>
    rw [show "<br />".data ++ l = '<' :: (" br />".data.tail ++ l) from rfl]
    rw [List.dropWhile_cons_of_neg (by decide)]
    exact CanonPieces.brp h
  | @opn t l hmem hbr h ih =>
    rw [List.cons_append, List.dropWhile_cons_of_neg (by decide)]
    exact CanonPieces.opn t hmem hbr h
  | @cls t l hmem hbr h ih =>
    rw [List.cons_append, List.dropWhile_cons_of_neg (by decide)]
    exact CanonPieces.cls t hmem hbr h

theorem dropWhile_append_of_ne (p : Char → Bool) (a b : List Char)
    (h : a.dropWhile p ≠ []) : (a ++ b).dropWhile p = a.dropWhile p ++ b := by
  induction a with
  | nil => exact absurd rfl h
  | cons x xs ih =>
    by_cases hx : p x
    · have h2 : xs.dropWhile p ≠ [] := by rwa [List.dropWhile_cons_of_pos hx] at h
      rw [List.cons_append, List.dropWhile_cons_of_pos hx, List.dropWhile_cons_of_pos hx]
      exact ih h2
    · rw [List.cons_append, List.dropWhile_cons_of_neg hx, List.dropWhile_cons_of_neg hx,
        List.cons_append]

theorem dropWhile_append_all (p : Char → Bool) (a b : List Char)
    (h : ∀ x ∈ a, p x = true) : (a ++ b).dropWhile p = b.dropWhile p := by
  induction a with
  | nil => rfl
  | cons x xs ih =>
    rw [List.cons_append, List.dropWhile_cons_of_pos (h x (by simp))]
    exact ih (fun y hy => h y (by simp [hy]))

theorem rdropWhile_append_of_ne (p : Char → Bool) (a b : List Char)
    (h : b.rdropWhile p ≠ []) : (a ++ b).rdropWhile p = a ++ b.rdropWhile p := by
  unfold List.rdropWhile at *
  rw [List.reverse_append]
  have hb : b.reverse.dropWhile p ≠ [] := fun hh => h (by rw [hh]; rfl)
  rw [dropWhile_append_of_ne p _ _ hb, List.reverse_append, List.reverse_reverse]

theorem rdropWhile_append_nil (p : Char → Bool) (a b : List Char)
    (h : b.rdropWhile p = []) : (a ++ b).rdropWhile p = a.rdropWhile p := by
  have hall : ∀ x ∈ b, p x = true := List.rdropWhile_eq_nil_iff.mp h
  unfold List.rdropWhile
  rw [List.reverse_append, dropWhile_append_all p _ _ (fun x hx => hall x (by simpa using hx))]

theorem canon_rdropWhile {s : List Char} (h : CanonPieces s) :
    CanonPieces (s.rdropWhile isJsWs) := by
  induction h with
  | nil => rw [List.rdropWhile_nil]; exact CanonPieces.nil
  | @txt c l h ih =>
    by_cases hl : l.rdropWhile isJsWs = []
    · rw [rdropWhile_append_nil _ _ _ hl]
      by_cases hw : isJsWs c
      · rw [encChar_ws hw, List.rdropWhile_singleton, if_pos hw]
        exact CanonPieces.nil
      · obtain ⟨a, z, he, hz⟩ := encChar_split c (by simpa using hw)
        rw [he, List.rdropWhile_concat_neg _ _ _ (by simp [hz]), ← he]
        rw [show encChar c = encChar c ++ [] by simp]
        exact CanonPieces.txt c CanonPieces.nil
    · rw [rdropWhile_append_of_ne _ _ _ hl]
      exact CanonPieces.txt c ih
  | @brp l h ih =>
    by_cases hl : l.rdropWhile isJsWs = []
    · rw [rdropWhile_append_nil _ _ _ hl]
      rw [show "<br />".data = "<br /".data ++ ['>'] from rfl]
      rw [List.rdropWhile_concat_neg _ _ _ (by decide)]
      rw [show "<br /".data ++ ['>'] = "<br />".data ++ ([] : List Char) by simp]
      exact CanonPieces.brp CanonPieces.nil
    · rw [rdropWhile_append_of_ne _ _ _ hl]
      exact CanonPieces.brp ih
  | @opn t l hmem hbr h ih =>
    by_cases hl : l.rdropWhile isJsWs = []
    · rw [rdropWhile_append_nil _ _ _ hl]
      rw [show '<' :: (t ++ ['>']) = ('<' :: t) ++ ['>'] from rfl]
      rw [List.rdropWhile_concat_neg _ _ _ (by decide)]
      rw [show ('<' :: t) ++ ['>'] = ('<' :: (t ++ ['>'])) ++ ([] : List Char) by simp]
      exact CanonPieces.opn t hmem hbr CanonPieces.nil
    · rw [rdropWhile_append_of_ne _ _ _ hl]
      exact CanonPieces.opn t hmem hbr ih
  | @cls t l hmem hbr h ih =>
    by_cases hl : l.rdropWhile isJsWs = []
    · rw [rdropWhile_append_nil _ _ _ hl]
      rw [show '<' :: '/' :: (t ++ ['>']) = ('<' :: '/' :: t) ++ ['>'] from rfl]
      rw [List.rdropWhile_concat_neg _ _ _ (by decide)]
      rw [show ('<' :: '/' :: t) ++ ['>'] = ('<' :: '/' :: (t ++ ['>'])) ++ ([] : List Char) by simp]
      exact CanonPieces.cls t hmem hbr CanonPieces.nil
    · rw [rdropWhile_append_of_ne _ _ _ hl]
      exact CanonPieces.cls t hmem hbr ih

theorem canon_jsTrim {s : List Char} (h : CanonPieces s) : CanonPieces (jsTrim s) := by
  unfold jsTrim
  exact canon_rdropWhile (canon_dropWhile h)

theorem jsTrim_idem (l : List Char) : jsTrim (jsTrim l) = jsTrim l :=
  jsTrim_eq_self (jsTrim l) (jsTrim_head_not_ws l) (jsTrim_getLast_not_ws l)

theorem sanitizeChars_idem (v : List Char) :
    sanitizeChars (sanitizeChars v) = sanitizeChars v := by
  have hk : CanonPieces (sanitizeChars v) :=
    canon_jsTrim (canon_emit (tokenizeHtml v) SanState.norm)
  show jsTrim (emitToks (tokenizeHtml (sanitizeChars v)) SanState.norm) = sanitizeChars v
  rw [canon_roundtrip_full hk]
  show jsTrim (jsTrim (emitToks (tokenizeHtml v) SanState.norm)) = sanitizeChars v
  exact jsTrim_idem _

/-- Claim C1: normalizeStoredDescriptionHtml is idempotent on every
string, including the empty string, the empty paragraph and strings
with nested disallowed tags: the sanitizer model is a retraction (its
output is a canonical concatenation of escaped characters and allowed
tags that re-tokenizes to itself), trimming preserves canonicity, and
the two emptiness guards are stable. -/
theorem c1_normalize_idempotent (v : String) :
    normalizeStoredDescriptionHtml (normalizeStoredDescriptionHtml v) =
      normalizeStoredDescriptionHtml v := by
  unfold normalizeStoredDescriptionHtml
  by_cases h : sanitizeChars v.data = [] ∨ emptyHtml (sanitizeChars v.data) = true
  · rw [if_pos h, if_pos (by left; rfl)]
  · rw [if_neg h]
    have hdata : (⟨sanitizeChars v.data⟩ : String).data = sanitizeChars v.data := rfl
    rw [hdata, sanitizeChars_idem, if_neg h]

/-! ## Claim C6: well-formedness of every result -/

theorem dedupSkills_mem {seen : List (List Char)} {es : List SkillEntry} {e : SkillEntry}
    (h : e ∈ dedupSkills seen es) : e ∈ es := by
  induction es generalizing seen with
  | nil => exact absurd h (List.not_mem_nil e)
  | cons a as ih =>
    simp only [dedupSkills] at h
    by_cases hk : lowerStr a.name.data ∈ seen
    · rw [if_pos hk] at h
      exact List.mem_cons_of_mem _ (ih h)
    · rw [if_neg hk] at h
      rcases List.mem_cons.mp h with h1 | h2
      · exact h1 ▸ List.mem_cons_self a as
      · exact List.mem_cons_of_mem _ (ih h2)

theorem clampLevel_bounds (v : Int) : 1 ≤ clampLevel v ∧ clampLevel v ≤ 5 := by
  unfold clampLevel MIN_SKILL_LEVEL MAX_SKILL_LEVEL
  exact ⟨le_max_left 1 _, max_le (by norm_num) (min_le_left 5 v)⟩

/-- Every entry parseLevelFromLine returns has a nonempty name and a
level between 1 and 5. -/
theorem parseLevelFromLineL_wf {l : List Char} {e : SkillEntry}
    (h : parseLevelFromLineL l = some e) :
    e.name ≠ "" ∧ 1 ≤ e.level ∧ e.level ≤ 5 := by
  unfold parseLevelFromLineL at h
  split at h
  · rename_i pre d hs
    simp only [] at h
    split at h
    · exact absurd h (by simp)
    · rename_i hn
      obtain rfl := Option.some.inj h
      refine ⟨fun hq => hn (congrArg String.data hq), ?_, ?_⟩
      · exact (clampLevel_bounds _).1
      · exact (clampLevel_bounds _).2
  · split at h
    · rename_i pre d hs
      simp only [] at h
      split at h
      · exact absurd h (by simp)
      · rename_i hn
        obtain rfl := Option.some.inj h
        refine ⟨fun hq => hn (congrArg String.data hq), ?_, ?_⟩
        · exact (clampLevel_bounds _).1
        · exact (clampLevel_bounds _).2
    · simp only [] at h
      split at h
      · exact absurd h (by simp)
      · rename_i hn
        obtain rfl := Option.some.inj h
        exact ⟨fun hq => hn (congrArg String.data hq),
          by norm_num [DEFAULT_SKILL_LEVEL], by norm_num [DEFAULT_SKILL_LEVEL]⟩

/-- Skill-entry well-formedness for every input string. -/
theorem parseSkillEntries_wf (s : String) :
    ∀ e ∈ parseSkillEntries s, e.name ≠ "" ∧ 1 ≤ e.level ∧ e.level ≤ 5 := by
  intro e he
  unfold parseSkillEntries at he
  split at he
  · exact absurd he (List.not_mem_nil e)
  · rcases List.mem_filterMap.mp (dedupSkills_mem he) with ⟨l, _, hl⟩
    exact parseLevelFromLineL_wf hl

/-- Every block parseDescriptionBlocks returns has at least one run
with non-whitespace text: both final branches filter by runsHaveText. -/
theorem parseDescriptionBlocks_wf (s : String) :
    ∀ b ∈ parseDescriptionBlocks s, runsHaveText b.runs = true := by
  intro b hb
  unfold parseDescriptionBlocks at hb
  split at hb
  · exact absurd hb (List.not_mem_nil b)
  · split at hb
    · split at hb
      · exact absurd hb (List.not_mem_nil b)
      · unfold parseTopLevelHtmlBlocks at hb
        exact (List.mem_filter.mp hb).2
    · unfold parseLegacyMarkdownBlocks at hb
      exact (List.mem_filter.mp hb).2

/-- parseCvText always produces at least one section: the custom
Content fallback fires whenever segmentation finds nothing else. -/
theorem parseCvSections_ne_nil (s : String) : parseCvSections s ≠ [] := by
  unfold parseCvSections
  split
  · rename_i h
    rcases List.any_eq_true.mp h with ⟨sec, hmem, _⟩
    exact List.ne_nil_of_mem hmem
  · simp

/-- Claim C6: the embedded core operations are total Lean functions
(never-throw holds by construction of the executable embedding), and
their results are well-formed on every string input: every parsed
skill entry has a nonempty name and a level in 1..5, every parsed
description block has visible text in its runs, and CV segmentation
always returns at least one section. -/
theorem c6_totality :
    (∀ s : String, ∀ e ∈ parseSkillEntries s, e.name ≠ "" ∧ 1 ≤ e.level ∧ e.level ≤ 5) ∧
    (∀ s : String, ∀ b ∈ parseDescriptionBlocks s, runsHaveText b.runs = true) ∧
    (∀ s : String, parseCvSections s ≠ []) :=
  ⟨parseSkillEntries_wf, parseDescriptionBlocks_wf, parseCvSections_ne_nil⟩

/-- Concrete instantiation of the C6 invariants. -/
theorem c6_totality_witness :
    ((⟨"React", 4⟩ : SkillEntry) ∈ parseSkillEntries "React" ∧
      ((⟨"React", 4⟩ : SkillEntry).name ≠ "" ∧
        1 ≤ (⟨"React", 4⟩ : SkillEntry).level ∧ (⟨"React", 4⟩ : SkillEntry).level ≤ 5)) ∧
    parseCvSections "" ≠ [] :=
  ⟨⟨by decide, c6_totality.1 "React" ⟨"React", 4⟩ (by decide)⟩, c6_totality.2.2 ""⟩

/-! ## Claims C3 and C8 -/

/-- Claim C3, counterexample: the editor-markup round trip does not
return the two bullet lines unchanged. The first bullet (short, no
sentence punctuation, followed by another bullet) is promoted to a
heading already by parseLegacyMarkdownBlocks, so it renders as a
paragraph, is re-promoted to a heading on the way back, and loses its
bullet marker in the plain text. -/
theorem c3_bullet_roundtrip_counterexample :
    descriptionToPlainText (descriptionToEditorHtml "- Built X\n- Shipped Y") ≠
      "- Built X\n- Shipped Y" := by decide

/-- Claim C3 as amended: on the claimed input the round trip returns
the first bullet as a heading line without its marker and keeps the
second bullet; bullets that end in sentence punctuation are immune to
the promotion and round-trip exactly. -/
theorem c3_bullet_roundtrip :
    descriptionToPlainText (descriptionToEditorHtml "- Built X\n- Shipped Y") =
      "Built X\n- Shipped Y" ∧
    descriptionToPlainText (descriptionToEditorHtml "- Built X.\n- Shipped Y.") =
      "- Built X.\n- Shipped Y." :=
  ⟨by decide, by decide⟩

/-- Claim C8: parsing the legacy-dialect lines Senior Engineer comma
Acme, then two bullets, yields a first block of kind heading whose
text is the full role line (the role-title pattern makes the line
heading-eligible and the heuristics promote it). -/
theorem c8_heading_promotion :
    ((parseDescriptionBlocks "Senior Engineer, Acme\n- Led rewrite\n- Cut latency 40%").head?).map
        (fun b => (b.kind, blockTextL b)) =
      some (BlockKind.heading, "Senior Engineer, Acme".data) := by decide

end Dossier
